import Mathlib

/-!
Verification of the dcnum pipeline core (DC-analysis/dcnum).

This file gives a shallow embedding of the parts of dcnum that the
claims C1..C10 are about, translated from the Python sources:

- src/dcnum/write/writer.py           (HDF5Writer, copy_metadata)
- src/dcnum/write/queue_collector_base.py  (QueueCollectorBase.run)
- src/dcnum/logic/slot_register.py    (SlotRegister, StateWarden)
- src/dcnum/logic/chunk_slot.py       (ChunkSlot.load)
- src/dcnum/logic/universal_worker.py (UniversalWorker.run)
- src/dcnum/read/cache.py             (HDF5ImageCache, ImageCorrCache)
- src/dcnum/common.py                 (join_worker)
- src/dcnum/feat/feat_background/base.py (Background.process)

Parts of the repository that are referenced but whose source files are
not part of the snapshot (the EventStash class, the ChunkSlotData
task-lock record, and the DCNumJobRunner background decision) are
modelled from the specification; their doc comments say so explicitly.

Conventions: numpy arrays become lists (outer axis first); machine
integers become Nat or Int with explicit wrap-around where it matters;
Python dicts become association lists with first-key-wins lookup;
fallible code returns Option or Except.
-/

namespace Dcnum

/-! ### Association-list helpers (model of Python dict operations) -/

/-- Update the first binding of a key, or append a new binding at the
end (matching Python dict assignment order semantics). -/
def assocUpdate {β : Type} : List (String × β) → String → β → List (String × β)
  | [], k, v => [(k, v)]
  | (k', v') :: rest, k, v =>
    if k' = k then (k, v) :: rest else (k', v') :: assocUpdate rest k v

/-- Python dict.setdefault: insert only when the key is absent. -/
def setdefault {β : Type} (l : List (String × β)) (k : String) (v : β) :
    List (String × β) :=
  if (l.lookup k).isSome then l else l ++ [(k, v)]

theorem assocUpdate_lookup_self {β : Type} (l : List (String × β)) (k : String)
    (v : β) : (assocUpdate l k v).lookup k = some v := by
  induction l with
  | nil => simp [assocUpdate, List.lookup]
  | cons hd tl ih =>
    by_cases h : hd.1 = k
    · simp [assocUpdate, h, List.lookup]
    · simp only [assocUpdate]
      rw [if_neg h]
      have hbeq : (k == hd.1) = false := by
        simp [beq_iff_eq]; exact fun he => h he.symm
      simp [List.lookup, hbeq, ih]

theorem assocUpdate_lookup_other {β : Type} (l : List (String × β))
    (k k' : String) (v : β) (hne : k' ≠ k) :
    (assocUpdate l k v).lookup k' = l.lookup k' := by
  have hbk : (k' == k) = false := by simp [beq_iff_eq, hne]
  induction l with
  | nil => simp [assocUpdate, List.lookup, hbk]
  | cons hd tl ih =>
    by_cases h : hd.1 = k
    · subst h
      simp [assocUpdate, List.lookup, hbk]
    · simp only [assocUpdate]
      rw [if_neg h]
      by_cases h2 : k' = hd.1
      · simp [List.lookup, h2]
      · have hbeq : (k' == hd.1) = false := by simp [beq_iff_eq, h2]
        simp [List.lookup, hbeq, ih]

theorem setdefault_lookup_some {β : Type} (l : List (String × β))
    (k k' : String) (v v' : β) (h : l.lookup k' = some v') :
    (setdefault l k v).lookup k' = some v' := by
  unfold setdefault
  by_cases hs : (l.lookup k).isSome
  · simp [hs, h]
  · rw [if_neg hs, List.lookup_append, h]
    rfl

/-! ### C7: HDF5Writer.get_best_nd_chunks and store_feature_chunk -/

/-- Product of a shape tuple, as in np.prod (empty product is 1). -/
def shapeProd (shape : List Nat) : Nat := shape.foldl (· * ·) 1

/-- Embedding of HDF5Writer.get_best_nd_chunks (writer.py).  The Python
code computes int(np.floor(1024**2 / event_size)) with float64 division;
for every positive integer event size the double rounding cannot cross
an integer boundary (the distance of the exact quotient to the nearest
integer is at least 1/event_size, which is always larger than half an
ulp of the quotient), so the float floor equals Nat division here. -/
def get_best_nd_chunks (item_shape : List Nat) (itemsize : Nat) : List Nat :=
  let num_bytes := 1024 ^ 2
  let event_size := shapeProd item_shape * itemsize
  let chunk_size_int := max 10 (num_bytes / event_size)
  chunk_size_int :: item_shape

/-- One row of a feature dataset (inner axes flattened). -/
abbrev Row := List Int

/-- The events group of an output file: feature name to stored rows. -/
abbrev EventsGroup := List (String × List Row)

/-- Rows of a feature dataset, empty when the dataset does not exist. -/
def dsetRows (events : EventsGroup) (feat : String) : List Row :=
  (events.lookup feat).getD []

/-- Embedding of HDF5Writer.store_feature_chunk (writer.py): resize the
dataset along axis 0 and write the new rows after the old ones.  The
special case for boolean mask data multiplies entries by 255 first.
The dtypeBool flag mirrors data.dtype == bool in the source. -/
def store_feature_chunk (events : EventsGroup) (feat : String)
    (dtypeBool : Bool) (data : List Row) : EventsGroup :=
  let d := if feat = "mask" ∧ dtypeBool then
             data.map (fun r => r.map (fun b => 255 * b))
           else data
  assocUpdate events feat (dsetRows events feat ++ d)

theorem dsetRows_store (events : EventsGroup) (feat : String)
    (dtypeBool : Bool) (data : List Row) :
    dsetRows (store_feature_chunk events feat dtypeBool data) feat
      = dsetRows events feat
        ++ (if feat = "mask" ∧ dtypeBool then
              data.map (fun r => r.map (fun b => 255 * b))
            else data) := by
  unfold store_feature_chunk
  rw [dsetRows, assocUpdate_lookup_self, Option.getD_some]

/-- C7: the first chunk axis is max(10, floor(2 to the 20 over the item
byte size)), and store_feature_chunk grows the dataset by exactly the
number of appended rows while old rows stay unchanged. -/
theorem c7_chunks_and_append (item_shape : List Nat) (itemsize : Nat)
    (events : EventsGroup) (feat : String) (dtypeBool : Bool)
    (data : List Row)
    (hpos : 0 < shapeProd item_shape * itemsize) :
    get_best_nd_chunks item_shape itemsize
      = max 10 (2 ^ 20 / (shapeProd item_shape * itemsize)) :: item_shape
    ∧ (dsetRows (store_feature_chunk events feat dtypeBool data) feat).length
      = (dsetRows events feat).length + data.length
    ∧ (dsetRows (store_feature_chunk events feat dtypeBool data) feat).take
        (dsetRows events feat).length = dsetRows events feat := by
  refine ⟨?_, ?_, ?_⟩
  · unfold get_best_nd_chunks
    norm_num
  · rw [dsetRows_store]
    by_cases h : feat = "mask" ∧ dtypeBool = true
    · simp [h]
    · simp [h]
  · rw [dsetRows_store, List.take_append_of_le_length (le_refl _),
      List.take_length]

/-- Witness for c7_chunks_and_append at a concrete shape. -/
theorem c7_chunks_and_append_witness :
    get_best_nd_chunks [80, 320] 1
      = max 10 (2 ^ 20 / (shapeProd [80, 320] * 1)) :: [80, 320]
    ∧ (dsetRows (store_feature_chunk [("deform", [[1], [2]])] "deform" false
        [[3]]) "deform").length
      = (dsetRows [("deform", [[1], [2]])] "deform").length + [[(3 : Int)]].length
    ∧ (dsetRows (store_feature_chunk [("deform", [[1], [2]])] "deform" false
        [[3]]) "deform").take
        (dsetRows [("deform", [[1], [2]])] "deform").length
      = dsetRows [("deform", [[1], [2]])] "deform" :=
  c7_chunks_and_append [80, 320] 1 [("deform", [[1], [2]])] "deform" false
    [[3]] (by decide)

/-! ### C8: join_worker (common.py) -/

/-- Embedding of the retry loop of join_worker (common.py).  The
argument alive gives the result of worker.is_alive() observed right
after the attempt with the given index; the loop breaks at the first
attempt after which the worker is no longer alive, and the for-else
branch raises when every attempt saw the worker alive.  Returns
(raised, attempts performed). -/
def joinLoop (alive : Nat → Bool) : Nat → Nat → Bool × Nat
  | _, 0 => (true, 0)
  | i, r + 1 =>
    if alive i then
      let rest := joinLoop alive (i + 1) r
      (rest.1, rest.2 + 1)
    else (false, 1)

/-- Embedding of join_worker (common.py): up to the given number of
retries of worker.join(timeout); raises (models the ValueError carrying
the JoinError message) iff the worker survived every attempt. -/
def join_worker (alive : Nat → Bool) (retries : Nat) : Bool × Nat :=
  joinLoop alive 0 retries

theorem joinLoop_spec (alive : Nat → Bool) :
    ∀ (r i : Nat), (joinLoop alive i r).2 ≤ r ∧
      ((joinLoop alive i r).1 = true ↔ ∀ k < r, alive (i + k) = true) := by
  intro r
  induction r with
  | zero => intro i; simp [joinLoop]
  | succ n ih =>
    intro i
    by_cases h : alive i
    · have hrec := ih (i + 1)
      constructor
      · simp only [joinLoop, h, if_true]
        omega
      · simp only [joinLoop, h, if_true]
        rw [hrec.2]
        constructor
        · intro hall k hk
          match k with
          | 0 => simpa using h
          | j + 1 =>
            have := hall j (by omega)
            simpa [Nat.add_comm, Nat.add_left_comm] using this
        · intro hall k hk
          have := hall (k + 1) (by omega)
          simpa [Nat.add_comm, Nat.add_left_comm] using this
    · constructor
      · simp [joinLoop, h]
      · simp only [joinLoop, h, if_false]
        constructor
        · intro hfalse; exact absurd hfalse (by simp)
        · intro hall
          have := hall 0 (by omega)
          simp [h] at this

/-- C8: join_worker performs at most the given number of attempts, and
raises the fatal join error iff the worker is still alive after every
attempt; if the worker joins during some attempt it returns normally. -/
theorem c8_join_worker (alive : Nat → Bool) (retries : Nat)
    (hr : 1 ≤ retries) :
    (join_worker alive retries).2 ≤ retries ∧
    ((join_worker alive retries).1 = true ↔ ∀ k < retries, alive k = true) := by
  have h := joinLoop_spec alive retries 0
  simpa [join_worker] using h

/-- Witness for c8_join_worker: with a worker that joins during the
third attempt and five allowed retries, no error is raised. -/
theorem c8_join_worker_witness :
    1 ≤ 5 ∧
    ((join_worker (fun k => decide (k < 2)) 5).2 ≤ 5 ∧
    ((join_worker (fun k => decide (k < 2)) 5).1 = true ↔
      ∀ k < 5, (fun k => decide (k < 2)) k = true)) :=
  ⟨by decide, c8_join_worker (fun k => decide (k < 2)) 5 (by decide)⟩

/-! ### C6: copy_metadata (writer.py) -/

/-- State of an HDF5 file as far as copy_metadata touches it: the root
attributes and the datasets below the logs, tables and basins groups
(a dataset is its list of lines; an absent group is the empty list). -/
structure H5Meta where
  attrs : List (String × String)
  logs : List (String × List String)
  tables : List (String × List String)
  basins : List (String × List String)

/-- Embedding of the per-topic loop of copy_metadata (writer.py): a key
is copied only when it is absent from the destination group and its
data is non-empty (empty datasets are ignored). -/
def copy_topic (src dst : List (String × List String)) :
    List (String × List String) :=
  src.foldl (fun d kv =>
    if (d.lookup kv.1).isSome then d
    else if kv.2.isEmpty then d
    else d ++ [kv]) dst

/-- Embedding of copy_metadata (writer.py): attributes are copied with
setdefault semantics; logs, tables and basins datasets are copied only
when absent from the destination. -/
def copy_metadata (h5_src h5_dst : H5Meta) (copy_basins : Bool) : H5Meta :=
  { attrs := h5_src.attrs.foldl (fun a kv => setdefault a kv.1 kv.2)
      h5_dst.attrs
    logs := copy_topic h5_src.logs h5_dst.logs
    tables := copy_topic h5_src.tables h5_dst.tables
    basins := if copy_basins then copy_topic h5_src.basins h5_dst.basins
              else h5_dst.basins }

theorem foldl_setdefault_lookup_some (src : List (String × String))
    (a : List (String × String)) (k : String) (v : String)
    (h : a.lookup k = some v) :
    (src.foldl (fun a kv => setdefault a kv.1 kv.2) a).lookup k = some v := by
  induction src generalizing a with
  | nil => simpa using h
  | cons hd tl ih =>
    simp only [List.foldl_cons]
    exact ih _ (setdefault_lookup_some _ _ _ _ _ h)

theorem copy_topic_lookup_some (src dst : List (String × List String))
    (k : String) (d : List String) (h : dst.lookup k = some d) :
    (copy_topic src dst).lookup k = some d := by
  unfold copy_topic
  induction src generalizing dst with
  | nil => simpa using h
  | cons hd tl ih =>
    simp only [List.foldl_cons]
    by_cases h1 : (dst.lookup hd.1).isSome
    · rw [if_pos h1]; exact ih _ h
    · rw [if_neg h1]
      by_cases h2 : hd.2.isEmpty
      · rw [if_pos h2]; exact ih _ h
      · rw [if_neg h2]
        refine ih _ ?_
        rw [List.lookup_append, h]
        rfl

/-- C6: copy_metadata never changes an existing value in the
destination: attribute keys already on the destination keep their prior
value, datasets already present under logs, tables or basins are left
untouched, and a key whose value changed must have been absent. -/
theorem c6_copy_metadata_preserves (h5_src h5_dst : H5Meta) (k : String)
    (v : String) (d : List String) :
    (h5_dst.attrs.lookup k = some v →
      (copy_metadata h5_src h5_dst true).attrs.lookup k = some v)
    ∧ (h5_dst.logs.lookup k = some d →
      (copy_metadata h5_src h5_dst true).logs.lookup k = some d)
    ∧ (h5_dst.tables.lookup k = some d →
      (copy_metadata h5_src h5_dst true).tables.lookup k = some d)
    ∧ (h5_dst.basins.lookup k = some d →
      (copy_metadata h5_src h5_dst true).basins.lookup k = some d)
    ∧ ((copy_metadata h5_src h5_dst true).attrs.lookup k
        ≠ h5_dst.attrs.lookup k → h5_dst.attrs.lookup k = none)
    ∧ ((copy_metadata h5_src h5_dst true).logs.lookup k
        ≠ h5_dst.logs.lookup k → h5_dst.logs.lookup k = none) := by
  refine ⟨?_, ?_, ?_, ?_, ?_, ?_⟩
  · exact fun h => foldl_setdefault_lookup_some _ _ _ _ h
  · exact fun h => copy_topic_lookup_some _ _ _ _ h
  · exact fun h => copy_topic_lookup_some _ _ _ _ h
  · intro h
    simpa [copy_metadata] using copy_topic_lookup_some h5_src.basins _ _ _ h
  · intro hne
    cases hv : h5_dst.attrs.lookup k with
    | none => rfl
    | some v0 => exact absurd (foldl_setdefault_lookup_some _ _ _ _ hv) (hv ▸ hne)
  · intro hne
    cases hv : h5_dst.logs.lookup k with
    | none => rfl
    | some d0 => exact absurd (copy_topic_lookup_some _ _ _ _ hv) (hv ▸ hne)

/-- Witness for c6_copy_metadata_preserves at concrete files. -/
theorem c6_copy_metadata_preserves_witness :
    let src : H5Meta :=
      { attrs := [("experiment:sample", "other")]
        logs := [("runlog", ["src line"])], tables := [], basins := [] }
    let dst : H5Meta :=
      { attrs := [("experiment:sample", "data")]
        logs := [("runlog", ["dst line"])], tables := [], basins := [] }
    (copy_metadata src dst true).attrs.lookup "experiment:sample"
        = some "data"
    ∧ (copy_metadata src dst true).logs.lookup "runlog" = some ["dst line"] := by
  refine ⟨?_, ?_⟩
  · exact (c6_copy_metadata_preserves _ _ "experiment:sample" "data" []).1 rfl
  · exact (c6_copy_metadata_preserves _ _ "runlog" "" ["dst line"]).2.1 rfl

/-! ### C10: HDF5Writer.store_basin idempotence -/

/-- Escape a character for a JSON string literal.  The source relies on
json.dumps; for the basin key only determinism of the encoding matters,
so escaping of control and non-ascii characters is not spelled out. -/
def jsonEscape (s : String) : String :=
  String.join (s.toList.map (fun c =>
    if c = '"' then "\\\"" else if c = '\\' then "\\\\"
    else String.singleton c))

/-- JSON string literal. -/
def jsonStr (s : String) : String := "\"" ++ jsonEscape s ++ "\""

/-- JSON list of strings as json.dumps renders it with indent 2 at
nesting depth one (the empty list collapses to a bracket pair). -/
def jsonStrList (l : List String) : String :=
  if l.isEmpty then "[]"
  else "[\n" ++ String.intercalate ",\n" (l.map (fun s => "    " ++ jsonStr s))
       ++ "\n  ]"

/-- Embedding of the basin body built in HDF5Writer.store_basin
(writer.py): json.dumps(bdat, indent=2) over the dict with keys
description, format, name, paths, type, and features appended last only
when given and non-empty. -/
def jsonBasinBody (name : String) (paths : List String)
    (features : Option (List String)) (description : Option String) :
    String :=
  let descVal := match description with
    | none => "null"
    | some s => jsonStr s
  let entries :=
    ["  \"description\": " ++ descVal,
     "  \"format\": \"hdf5\"",
     "  \"name\": " ++ jsonStr name,
     "  \"paths\": " ++ jsonStrList paths,
     "  \"type\": \"file\""]
    ++ (match features with
        | some fs => if fs.isEmpty then [] else
            ["  \"features\": " ++ jsonStrList fs]
        | none => [])
  "\x7b\n" ++ String.intercalate ",\n" entries ++ "\n\x7d"

/-- Embedding of HDF5Writer.store_basin (writer.py): the basin key is
the hex digest of the JSON body (the hash function md5 of hashlib is
kept abstract); the dataset is created only when the key is absent from
the basins group. -/
def store_basin (md5hex : String → String)
    (basins : List (String × List String)) (name : String)
    (paths : List String) (features : Option (List String))
    (description : Option String) : List (String × List String) :=
  let bstring := jsonBasinBody name paths features description
  let key := md5hex bstring
  if (basins.lookup key).isSome then basins
  else basins ++ [(key, bstring.splitOn "\n")]

/-- C10: store_basin is idempotent; after the first call the key (the
digest of the JSON body) exists in the basins group, so a second call
with identical arguments creates nothing and leaves the file as is. -/
theorem c10_store_basin_idempotent (md5hex : String → String)
    (basins : List (String × List String)) (name : String)
    (paths : List String) (features : Option (List String))
    (description : Option String) :
    store_basin md5hex (store_basin md5hex basins name paths features
        description) name paths features description
      = store_basin md5hex basins name paths features description
    ∧ ((store_basin md5hex basins name paths features description).lookup
        (md5hex (jsonBasinBody name paths features description))).isSome := by
  cases hb : basins.lookup
      (md5hex (jsonBasinBody name paths features description)) with
  | some w => simp [store_basin, hb]
  | none =>
    have hk : ((basins ++ [(md5hex (jsonBasinBody name paths features
        description), (jsonBasinBody name paths features
        description).splitOn "\n")]).lookup
          (md5hex (jsonBasinBody name paths features description)))
        = some ((jsonBasinBody name paths features
            description).splitOn "\n") := by
      rw [List.lookup_append, hb]
      simp [List.lookup]
    simp [store_basin, hb, hk]

/-! ### C9: ChunkSlot.load image_corr versus ImageCorrCache.get_chunk -/

/-- One input frame: flattened pixel values of dtype uint8. -/
abbrev FrameU8 := List Nat

/-- Wrap an integer into signed 16-bit range (numpy int16 semantics). -/
def i16wrap (x : Int) : Int := (x + 2 ^ 15) % 2 ^ 16 - 2 ^ 15

/-- Embedding of HDF5ImageCache.get_chunk (read/cache.py): the slice of
frames from chunk_size times c up to chunk_size times c plus one. -/
def hdf5_get_chunk (h5ds : List FrameU8) (chunk_size c : Nat) :
    List FrameU8 :=
  (h5ds.drop (chunk_size * c)).take chunk_size

/-- Embedding of ImageCorrCache.get_chunk (read/cache.py): the image
chunk cast to int16 minus the background chunk, elementwise. -/
def imagecorr_get_chunk (image image_bg : List FrameU8)
    (chunk_size c : Nat) : List (List Int) :=
  List.zipWith
    (fun fa fb => List.zipWith (fun (a b : Nat) =>
      i16wrap ((a : Int) - (b : Int))) fa fb)
    (hdf5_get_chunk image chunk_size c)
    (hdf5_get_chunk image_bg chunk_size c)

/-- View of the slot buffers that ChunkSlot.load writes. -/
structure ChunkSlotView where
  length : Nat
  state : Char
  chunk : Nat
  image : List FrameU8
  image_bg : List FrameU8
  image_corr : List (List Int)

/-- Embedding of ChunkSlot.load (logic/chunk_slot.py): copy the image
and background chunks into the slot buffers, store the int16 difference
in image_corr, set the chunk number, and advance the state from i to s
(the with_state_change decorator). -/
def ChunkSlot_load (cs : ChunkSlotView) (data_image data_image_bg : List FrameU8)
    (chunk_size idx : Nat) : ChunkSlotView :=
  let image := hdf5_get_chunk data_image chunk_size idx
  let image_bg := hdf5_get_chunk data_image_bg chunk_size idx
  let image_corr := List.zipWith
    (fun fa fb => List.zipWith (fun (a b : Nat) =>
      i16wrap ((a : Int) - (b : Int))) fa fb)
    image image_bg
  { cs with image := image, image_bg := image_bg, image_corr := image_corr,
            state := 's', chunk := idx }

/-- C9: after ChunkSlot.load of chunk c the slot image_corr equals
ImageCorrCache.get_chunk of c elementwise; both are the signed 16-bit
difference of image and background, exact for uint8 pixel values. -/
theorem c9_load_corr_eq_cache (cs : ChunkSlotView)
    (data_image data_image_bg : List FrameU8) (chunk_size idx : Nat)
    (hstate : cs.state = 'i')
    (hfit : (hdf5_get_chunk data_image chunk_size idx).length = cs.length) :
    (ChunkSlot_load cs data_image data_image_bg chunk_size idx).image_corr
      = imagecorr_get_chunk data_image data_image_bg chunk_size idx
    ∧ ∀ a b : Nat, a < 256 → b < 256 →
        i16wrap ((a : Int) - (b : Int)) = (a : Int) - (b : Int) := by
  refine ⟨rfl, ?_⟩
  intro a b ha hb
  unfold i16wrap
  omega

/-- Witness for c9_load_corr_eq_cache on a concrete two-frame stack. -/
theorem c9_load_corr_eq_cache_witness :
    let cs : ChunkSlotView :=
      { length := 1, state := 'i', chunk := 0,
        image := [[0, 0]], image_bg := [[0, 0]], image_corr := [[0, 0]] }
    (ChunkSlot_load cs [[10, 20], [30, 40]] [[1, 2], [3, 4]] 1 1).image_corr
      = imagecorr_get_chunk [[10, 20], [30, 40]] [[1, 2], [3, 4]] 1 1
    ∧ ∀ a b : Nat, a < 256 → b < 256 →
        i16wrap ((a : Int) - (b : Int)) = (a : Int) - (b : Int) :=
  c9_load_corr_eq_cache _ [[10, 20], [30, 40]] [[1, 2], [3, 4]] 1 1 rfl rfl

/-! ### C3: SlotRegister.task_load_all (logic/slot_register.py) -/

/-- The slot fields that task_load_all reads and writes. -/
structure MSlot where
  state : Char
  chunk : Nat
  is_remainder : Bool
deriving DecidableEq, Repr

/-- The register fields that task_load_all reads and writes. -/
structure MRegister where
  slots : List MSlot
  chunks_loaded : Nat
  num_chunks : Nat
deriving DecidableEq, Repr

/-- One candidate slot inspected by the loop body of task_load_all
(logic/slot_register.py): a slot in state i whose chunk number does not
exceed the counter is loaded with the next sequential chunk index when
it is eligible (a regular slot for every chunk but the last, the
remainder slot exactly for the last chunk); loading sets the chunk
number and moves the state from i to s (ChunkSlot.load under the
StateWarden), then the counter increments.  The result also records the
list of loads performed as pairs of chunk index and remainder flag. -/
def loadStep (num_chunks : Nat)
    (st : List MSlot × Nat × List (Nat × Bool)) (i : Nat) :
    List MSlot × Nat × List (Nat × Bool) :=
  match st.1[i]? with
  | none => st
  | some cs =>
    if cs.state = 'i' ∧ cs.chunk ≤ st.2.1 ∧
       ((st.2.1 < num_chunks - 1 ∧ ¬cs.is_remainder) ∨
        (st.2.1 = num_chunks - 1 ∧ cs.is_remainder)) then
      (st.1.set i { cs with state := 's', chunk := st.2.1 },
       st.2.1 + 1,
       st.2.2 ++ [(st.2.1, cs.is_remainder)])
    else st

/-- Embedding of SlotRegister.task_load_all (logic/slot_register.py).
The order argument is the sequence of slot indices the loop visits (the
source visits slots sorted ascending by chunk number under the
chunks_loaded lock; the theorems hold for every visiting order, hence
in particular for that one). -/
def task_load_all (reg : MRegister) (order : List Nat) :
    MRegister × List (Nat × Bool) :=
  if reg.chunks_loaded < reg.num_chunks then
    let r := order.foldl (loadStep reg.num_chunks)
      (reg.slots, reg.chunks_loaded, [])
    ({ reg with slots := r.1, chunks_loaded := r.2.1 }, r.2.2)
  else (reg, [])

/-- Invariant carried through the task_load_all fold. -/
def LoadInv (c0 num : Nat) (st : List MSlot × Nat × List (Nat × Bool)) :
    Prop :=
  st.2.1 = c0 + st.2.2.length
  ∧ st.2.2.map Prod.fst = List.range' c0 st.2.2.length
  ∧ st.2.1 ≤ num
  ∧ ∀ p ∈ st.2.2, p.2 = true ↔ p.1 = num - 1

theorem loadStep_inv (c0 num : Nat) (hnum : 1 ≤ num)
    (st : List MSlot × Nat × List (Nat × Bool)) (i : Nat)
    (h : LoadInv c0 num st) : LoadInv c0 num (loadStep num st i) := by
  obtain ⟨slots, loaded, loads⟩ := st
  obtain ⟨h1, h2, h3, h4⟩ := h
  simp only at h1 h2 h3 h4
  unfold loadStep
  dsimp only
  cases hs : slots[i]? with
  | none => exact ⟨h1, h2, h3, h4⟩
  | some cs =>
    dsimp only
    by_cases hc : cs.state = 'i' ∧ cs.chunk ≤ loaded ∧
        ((loaded < num - 1 ∧ ¬cs.is_remainder) ∨
         (loaded = num - 1 ∧ cs.is_remainder))
    · rw [if_pos hc]
      refine ⟨?_, ?_, ?_, ?_⟩
      · dsimp only
        simp only [List.length_append, List.length_cons, List.length_nil]
        omega
      · dsimp only
        rw [List.map_append, h2, List.length_append]
        simp only [List.map_cons, List.map_nil, List.length_cons,
          List.length_nil, Nat.zero_add]
        rw [List.range'_1_concat]
        rw [h1]
      · dsimp only
        rcases hc.2.2 with ⟨hlt, _⟩ | ⟨heq, _⟩ <;> omega
      · dsimp only
        intro p hp
        rcases List.mem_append.mp hp with hpl | hpr
        · exact h4 p hpl
        · have hpe : p = (loaded, cs.is_remainder) := by simpa using hpr
          subst hpe
          rcases hc.2.2 with ⟨hlt, hr⟩ | ⟨heq, hr⟩
          · simp only [hr]
            constructor
            · intro hfalse; exact absurd hfalse (by simp)
            · intro habs; omega
          · simp [hr, heq]
    · rw [if_neg hc]
      exact ⟨h1, h2, h3, h4⟩

theorem foldl_loadStep_inv (num : Nat) (hnum : 1 ≤ num) (c0 : Nat)
    (order : List Nat) (st : List MSlot × Nat × List (Nat × Bool))
    (h : LoadInv c0 num st) :
    LoadInv c0 num (order.foldl (loadStep num) st) := by
  induction order generalizing st with
  | nil => exact h
  | cons hd tl ih => exact ih _ (loadStep_inv c0 num hnum st hd h)

/-- C3: chunks are loaded in strictly increasing sequential order (the
loads of one call are the chunk indices counting on from the counter,
so globally the k-th load is chunk k), the counter advances by the
number of loads and never exceeds num_chunks, and a chunk goes to the
remainder slot iff it is the last chunk. -/
theorem c3_task_load_all (reg : MRegister) (order : List Nat)
    (hc : reg.chunks_loaded ≤ reg.num_chunks) :
    ((task_load_all reg order).2.map Prod.fst
      = List.range' reg.chunks_loaded (task_load_all reg order).2.length)
    ∧ (task_load_all reg order).1.chunks_loaded
      = reg.chunks_loaded + (task_load_all reg order).2.length
    ∧ (task_load_all reg order).1.chunks_loaded ≤ reg.num_chunks
    ∧ ∀ p ∈ (task_load_all reg order).2,
        (p.2 = true ↔ p.1 = reg.num_chunks - 1) := by
  unfold task_load_all
  by_cases hlt : reg.chunks_loaded < reg.num_chunks
  · have hnum : 1 ≤ reg.num_chunks := by omega
    have hinv := foldl_loadStep_inv reg.num_chunks hnum reg.chunks_loaded
      order (reg.slots, reg.chunks_loaded, [])
      ⟨by simp, by simp, le_of_lt hlt, by simp⟩
    obtain ⟨h1, h2, h3, h4⟩ := hinv
    simp only [hlt, if_true]
    exact ⟨h2, h1, h3, h4⟩
  · simp only [hlt, if_false]
    exact ⟨by simp, by simp, hc, by simp⟩

/-- Witness for c3_task_load_all: a register with one regular slot and
one remainder slot over two chunks; the single call loads chunk 0 into
the regular slot. -/
theorem c3_task_load_all_witness :
    let reg : MRegister :=
      { slots := [⟨'i', 0, false⟩, ⟨'i', 0, true⟩],
        chunks_loaded := 0, num_chunks := 2 }
    ((task_load_all reg [0, 1]).2.map Prod.fst
      = List.range' reg.chunks_loaded (task_load_all reg [0, 1]).2.length)
    ∧ (task_load_all reg [0, 1]).1.chunks_loaded
      = reg.chunks_loaded + (task_load_all reg [0, 1]).2.length
    ∧ (task_load_all reg [0, 1]).1.chunks_loaded ≤ reg.num_chunks
    ∧ ∀ p ∈ (task_load_all reg [0, 1]).2,
        (p.2 = true ↔ p.1 = reg.num_chunks - 1) :=
  c3_task_load_all _ [0, 1] (by decide)

/-! ### C4: the UniversalWorker loop body (logic/universal_worker.py) -/

/-- What one pass of the UniversalWorker while loop did. -/
inductive WorkerAction where
  | exited
  | paused
  | worked
  | slept
deriving DecidableEq, Repr

/-- Embedding of one iteration of UniversalWorker.run
(logic/universal_worker.py): exit on state q, sleep half a second on
state p, otherwise call task_load_all and sleep ten milliseconds iff it
did nothing.  The loop body contains no other stage calls. -/
def worker_iteration (reg : MRegister) (order : List Nat) (st : Char) :
    MRegister × WorkerAction :=
  if st = 'q' then (reg, .exited)
  else if st = 'p' then (reg, .paused)
  else
    let r := task_load_all reg order
    if r.2.isEmpty then (r.1, .slept) else (r.1, .worked)

/-- C4 counterexample: the claim says a worker iteration in a running
state attempts loading, segmentation and extraction on any ready slot
and sleeps only when none of the three stages did work; with a slot
ready for segmentation (state s) and nothing to load, the claim
therefore predicts a working iteration, but the source loop only calls
task_load_all and sleeps, leaving every slot untouched. -/
theorem c4_counterexample :
    ¬ (∀ (reg : MRegister) (order : List Nat) (st : Char),
        st ≠ 'p' → st ≠ 'q' →
        (∃ sl ∈ reg.slots, sl.state = 's') →
        (worker_iteration reg order st).2 ≠ WorkerAction.slept) := by
  intro h
  exact h { slots := [⟨'s', 0, false⟩], chunks_loaded := 1, num_chunks := 1 }
    [0] 'w' (by decide) (by decide)
    ⟨⟨'s', 0, false⟩, by decide⟩ (by decide)

theorem foldl_loadStep_untouched (num : Nat) (order : List Nat)
    (slots0 : List MSlot) (st : List MSlot × Nat × List (Nat × Bool))
    (hst : ∀ (j : Nat) (sl : MSlot), slots0[j]? = some sl → sl.state ≠ 'i' →
      st.1[j]? = some sl) :
    ∀ (j : Nat) (sl : MSlot), slots0[j]? = some sl → sl.state ≠ 'i' →
      (order.foldl (loadStep num) st).1[j]? = some sl := by
  induction order generalizing st with
  | nil => exact hst
  | cons hd tl ih =>
    refine ih _ ?_
    intro j sl hj hsl
    have hprev := hst j sl hj hsl
    obtain ⟨slots, loaded, loads⟩ := st
    unfold loadStep
    dsimp only
    cases hs : slots[hd]? with
    | none => exact hprev
    | some cs =>
      dsimp only
      by_cases hc : cs.state = 'i' ∧ cs.chunk ≤ loaded ∧
          ((loaded < num - 1 ∧ ¬cs.is_remainder) ∨
           (loaded = num - 1 ∧ cs.is_remainder))
      · rw [if_pos hc]
        by_cases hij : hd = j
        · subst hij
          rw [hprev] at hs
          cases hs
          exact absurd hc.1 hsl
        · dsimp only
          rw [List.getElem?_set_ne hij]
          exact hprev
      · rw [if_neg hc]
        exact hprev

/-- C4 amended: on every iteration whose global state is neither p nor
q, the worker attempts only chunk loading (task_load_all); it sleeps
iff no chunk was loaded, and slots not in state i (in particular slots
awaiting segmentation or extraction) are never touched. -/
theorem c4_amended (reg : MRegister) (order : List Nat) (st : Char)
    (hp : st ≠ 'p') (hq : st ≠ 'q') :
    (worker_iteration reg order st).1 = (task_load_all reg order).1
    ∧ ((worker_iteration reg order st).2 = WorkerAction.slept
        ↔ (task_load_all reg order).2 = [])
    ∧ ∀ (j : Nat) (sl : MSlot), reg.slots[j]? = some sl → sl.state ≠ 'i' →
        (worker_iteration reg order st).1.slots[j]? = some sl := by
  have huntouched : ∀ (j : Nat) (sl : MSlot), reg.slots[j]? = some sl → sl.state ≠ 'i' →
      (task_load_all reg order).1.slots[j]? = some sl := by
    intro j sl hj hsl
    unfold task_load_all
    by_cases hlt : reg.chunks_loaded < reg.num_chunks
    · simp only [hlt, if_true]
      exact foldl_loadStep_untouched reg.num_chunks order reg.slots
        (reg.slots, reg.chunks_loaded, []) (fun _ _ hj hsl => hj) j sl hj hsl
    · simp only [hlt, if_false]
      exact hj
  unfold worker_iteration
  rw [if_neg hq, if_neg hp]
  by_cases he : (task_load_all reg order).2.isEmpty
  · rw [if_pos he]
    refine ⟨rfl, ?_, huntouched⟩
    rw [List.isEmpty_iff] at he
    simp [he]
  · rw [if_neg he]
    refine ⟨rfl, ?_, huntouched⟩
    rw [List.isEmpty_iff] at he
    simp [he]

/-- Witness for c4_amended at a concrete register in running state. -/
theorem c4_amended_witness :
    let reg : MRegister :=
      { slots := [⟨'i', 0, false⟩], chunks_loaded := 0, num_chunks := 1 }
    (worker_iteration reg [0] 'w').1 = (task_load_all reg [0]).1
    ∧ ((worker_iteration reg [0] 'w').2 = WorkerAction.slept
        ↔ (task_load_all reg [0]).2 = [])
    ∧ ∀ (j : Nat) (sl : MSlot), reg.slots[j]? = some sl → sl.state ≠ 'i' →
        (worker_iteration reg [0] 'w').1.slots[j]? = some sl :=
  c4_amended _ [0] 'w' (by decide) (by decide)

/-! ### C2: StateWarden (logic/slot_register.py) -/

/-- Modelled from the spec: the ChunkSlotData record with its per-stage
task-lock (the file chunk_slot_data.py is not part of the snapshot;
only its callers in slot_register.py and its tests are).  The task-lock
reserves contiguous sub-ranges of the slot length for one stage:
tl_reserved is the next free frame index, tl_done counts frames marked
done, and tl_state remembers the stage the reservations belong to so
that the lock starts fresh after a state change (acquiring a new lock
for the next state must be possible, per the tests). -/
structure ChunkSlotData where
  length : Nat
  state : Char
  tl_state : Char
  tl_reserved : Nat
  tl_done : Nat
deriving DecidableEq, Repr

/-- Reset of the task-lock bookkeeping when the stage changed since the
last reservation. -/
def tlReset (cs : ChunkSlotData) : ChunkSlotData :=
  if cs.tl_state ≠ cs.state then
    { cs with tl_state := cs.state, tl_reserved := 0, tl_done := 0 }
  else cs

/-- Modelled from the spec: ChunkSlotData.acquire_task_lock reserves a
contiguous range of up to batch_size frames (the whole slot when
batch_size is none) and returns the pair of start and stop together
with the updated slot; the pair is zero-zero when nothing remains. -/
def acquire_task_lock (cs : ChunkSlotData) (batch_size : Option Nat) :
    (Nat × Nat) × ChunkSlotData :=
  let cs := tlReset cs
  if cs.length ≤ cs.tl_reserved then ((0, 0), cs)
  else
    let start := cs.tl_reserved
    let stop := min (start + batch_size.getD cs.length) cs.length
    ((start, stop), { cs with tl_reserved := stop })

/-- Modelled from the spec: ChunkSlotData.release_task_lock marks the
range done, or returns it to the free pool when the task failed; an
empty range releases nothing. -/
def release_task_lock (cs : ChunkSlotData) (start stop : Nat)
    (task_done : Bool) : ChunkSlotData :=
  if stop ≤ start then cs
  else if task_done then { cs with tl_done := cs.tl_done + (stop - start) }
  else { cs with tl_reserved := start }

/-- Modelled from the spec: ChunkSlotData.get_progress, the fraction of
frames completed for the current stage. -/
def get_progress (cs : ChunkSlotData) : ℚ := (cs.tl_done : ℚ) / cs.length

/-- The state a StateWarden carries (logic/slot_register.py). -/
structure StateWardenData where
  batch_range : Nat × Nat
  batch_size : Nat
  current_state : Char
  next_state : Char
deriving DecidableEq, Repr

/-- Embedding of the StateWarden constructor (logic/slot_register.py):
raise when the slot state does not match, otherwise acquire the task
lock and record the batch range. -/
def mkStateWarden (cs : ChunkSlotData) (current_state next_state : Char)
    (batch_size : Option Nat) :
    Except String (StateWardenData × ChunkSlotData) :=
  if cs.state ≠ current_state then .error "state mismatch"
  else
    let r := acquire_task_lock cs batch_size
    .ok ({ batch_range := r.1, batch_size := r.1.2 - r.1.1,
           current_state := current_state, next_state := next_state }, r.2)

/-- Embedding of StateWarden enter (logic/slot_register.py): when the
slot state changed since construction, release the lock as not done and
raise; the Bool records whether the error was raised. -/
def wardenEnter (w : StateWardenData) (cs : ChunkSlotData) :
    ChunkSlotData × Bool :=
  if cs.state ≠ w.current_state then
    (release_task_lock cs w.batch_range.1 w.batch_range.2 false, true)
  else (cs, false)

/-- Embedding of StateWarden exit (logic/slot_register.py): release the
batch range, done exactly when no exception occurred, then advance the
slot state to next_state when the progress is one. -/
def wardenExit (w : StateWardenData) (cs : ChunkSlotData)
    (exc : Bool) : ChunkSlotData :=
  if get_progress
      (release_task_lock cs w.batch_range.1 w.batch_range.2 (!exc)) = 1
  then { release_task_lock cs w.batch_range.1 w.batch_range.2 (!exc)
          with state := w.next_state }
  else release_task_lock cs w.batch_range.1 w.batch_range.2 (!exc)

/-- One full with-statement around a StateWarden: construct, enter, run
a body that either raises or not, exit.  When construction or entry
raises, the body and exit never run (Python context manager protocol).
Returns the final slot and whether an exception escaped. -/
def runWarden (cs : ChunkSlotData) (current_state next_state : Char)
    (batch_size : Option Nat) (bodyRaises : Bool) :
    ChunkSlotData × Bool :=
  match mkStateWarden cs current_state next_state batch_size with
  | .error _ => (cs, true)
  | .ok (w, cs1) =>
    match wardenEnter w cs1 with
    | (cs2, true) => (cs2, true)
    | (cs2, false) => (wardenExit w cs2 bodyRaises, bodyRaises)

theorem tlReset_fields (cs : ChunkSlotData) :
    (tlReset cs).state = cs.state ∧ (tlReset cs).length = cs.length
    ∧ (tlReset cs).tl_done ≤ cs.tl_done := by
  unfold tlReset
  split
  · exact ⟨rfl, rfl, Nat.zero_le _⟩
  · exact ⟨rfl, rfl, le_refl _⟩

theorem acquire_fields (cs : ChunkSlotData) (b : Option Nat) :
    (acquire_task_lock cs b).2.state = cs.state
    ∧ (acquire_task_lock cs b).2.length = cs.length
    ∧ (acquire_task_lock cs b).2.tl_done ≤ cs.tl_done := by
  obtain ⟨h1, h2, h3⟩ := tlReset_fields cs
  unfold acquire_task_lock
  simp only
  split
  · exact ⟨h1, h2, h3⟩
  · exact ⟨h1, h2, h3⟩

theorem release_fields (cs : ChunkSlotData) (a b : Nat) (d : Bool) :
    (release_task_lock cs a b d).state = cs.state
    ∧ (release_task_lock cs a b d).length = cs.length := by
  unfold release_task_lock
  split
  · exact ⟨rfl, rfl⟩
  · split
    · exact ⟨rfl, rfl⟩
    · exact ⟨rfl, rfl⟩

theorem release_not_done_tl_done (cs : ChunkSlotData) (a b : Nat) :
    (release_task_lock cs a b false).tl_done = cs.tl_done := by
  unfold release_task_lock
  split
  · rfl
  · rfl

theorem get_progress_ne_one (cs : ChunkSlotData)
    (h : cs.tl_done < cs.length) : get_progress cs ≠ 1 := by
  unfold get_progress
  intro habs
  have hlen : (cs.length : ℚ) ≠ 0 := by
    have hpos : 0 < cs.length := by omega
    exact_mod_cast hpos.ne'
  rw [div_eq_one_iff_eq hlen] at habs
  have : cs.tl_done = cs.length := by exact_mod_cast habs
  omega

theorem get_progress_eq_one_iff (cs : ChunkSlotData) (h : 0 < cs.length) :
    get_progress cs = 1 ↔ cs.tl_done = cs.length := by
  unfold get_progress
  have hlen : (cs.length : ℚ) ≠ 0 := by exact_mod_cast h.ne'
  rw [div_eq_one_iff_eq hlen]
  exact_mod_cast Iff.rfl

/-- C2: the StateWarden contract.  Part one: a raising body releases
the range as not done and the slot state is unchanged by the whole
context.  Part two: a clean body releases as done and the state
advances to next_state exactly when the stage is fully complete (the
degenerate case where next_state equals the current state is recorded
separately).  Part three: construction against a slot in the wrong
state raises and changes nothing.  Part four: an entry that finds the
state changed releases the lock as not done and raises, leaving the
state as it found it. -/
theorem c2_state_warden (cs : ChunkSlotData) (current_state next_state : Char)
    (batch_size : Option Nat) (w : StateWardenData)
    (hcur : cs.state = current_state)
    (hlen : 0 < cs.length)
    (hdone : cs.tl_done < cs.length) :
    ((runWarden cs current_state next_state batch_size true).1.state
        = cs.state
      ∧ (runWarden cs current_state next_state batch_size true).2 = true)
    ∧ ((runWarden cs current_state next_state batch_size false).2 = false
      ∧ ((runWarden cs current_state next_state batch_size false).1.state
          = next_state
        ↔ (runWarden cs current_state next_state batch_size false).1.tl_done
          = cs.length)
        ∨ next_state = cs.state)
    ∧ (∀ cs' : ChunkSlotData, cs'.state ≠ current_state →
        runWarden cs' current_state next_state batch_size true = (cs', true))
    ∧ (cs.state ≠ w.current_state →
        wardenEnter w cs
          = (release_task_lock cs w.batch_range.1 w.batch_range.2 false, true)
        ∧ (wardenEnter w cs).1.state = cs.state) := by
  obtain ⟨hastate, halen, hadone⟩ := acquire_fields cs batch_size
  have hmk : mkStateWarden cs current_state next_state batch_size
      = .ok ({ batch_range := (acquire_task_lock cs batch_size).1,
               batch_size := (acquire_task_lock cs batch_size).1.2
                 - (acquire_task_lock cs batch_size).1.1,
               current_state := current_state, next_state := next_state },
             (acquire_task_lock cs batch_size).2) := by
    unfold mkStateWarden
    rw [if_neg (by simp [hcur])]
  have henter : wardenEnter
      { batch_range := (acquire_task_lock cs batch_size).1,
        batch_size := (acquire_task_lock cs batch_size).1.2
          - (acquire_task_lock cs batch_size).1.1,
        current_state := current_state, next_state := next_state }
      (acquire_task_lock cs batch_size).2
      = ((acquire_task_lock cs batch_size).2, false) := by
    unfold wardenEnter
    rw [if_neg (by simp [hastate, hcur])]
  refine ⟨?_, ?_, ?_, ?_⟩
  · -- raising body: exit releases not done, progress below one, state kept
    unfold runWarden
    rw [hmk]
    dsimp only
    rw [henter]
    dsimp only
    refine ⟨?_, rfl⟩
    unfold wardenExit
    simp only [Bool.not_true]
    have hlt : (release_task_lock (acquire_task_lock cs batch_size).2
        (acquire_task_lock cs batch_size).1.1
        (acquire_task_lock cs batch_size).1.2 false).tl_done
        < (release_task_lock (acquire_task_lock cs batch_size).2
        (acquire_task_lock cs batch_size).1.1
        (acquire_task_lock cs batch_size).1.2 false).length := by
      rw [release_not_done_tl_done, (release_fields _ _ _ _).2, halen]
      omega
    rw [if_neg (get_progress_ne_one _ hlt)]
    rw [(release_fields _ _ _ _).1, hastate]
  · -- clean body
    by_cases hnx : next_state = cs.state
    · right
      exact hnx
    · left
      unfold runWarden
      rw [hmk]
      dsimp only
      rw [henter]
      dsimp only
      refine ⟨rfl, ?_⟩
      unfold wardenExit
      simp only [Bool.not_false]
      set cs2 := release_task_lock (acquire_task_lock cs batch_size).2
        (acquire_task_lock cs batch_size).1.1
        (acquire_task_lock cs batch_size).1.2 true with hcs2
      have hlen2 : cs2.length = cs.length := by
        rw [hcs2, (release_fields _ _ _ _).2, halen]
      have hlenpos : 0 < cs2.length := by rw [hlen2]; exact hlen
      by_cases hp : get_progress cs2 = 1
      · rw [if_pos hp]
        have hd := (get_progress_eq_one_iff cs2 hlenpos).mp hp
        rw [hlen2] at hd
        simp [hd]
      · rw [if_neg hp]
        have hne := hp
        rw [get_progress_eq_one_iff cs2 hlenpos, hlen2] at hne
        constructor
        · intro hst
          rw [hcs2, (release_fields _ _ _ _).1, hastate, hcur] at hst
          exact absurd (hcur ▸ hst.symm) hnx
        · intro habs
          exact absurd habs hne
  · intro cs' hne
    unfold runWarden mkStateWarden
    rw [if_pos (by simpa using hne)]
  · intro hne
    unfold wardenEnter
    rw [if_pos (by simpa using hne)]
    exact ⟨rfl, (release_fields _ _ _ _).1⟩

/-- Witness for c2_state_warden at a concrete fresh slot. -/
theorem c2_state_warden_witness :
    let cs : ChunkSlotData :=
      { length := 2, state := 'i', tl_state := 'i',
        tl_reserved := 0, tl_done := 0 }
    let w : StateWardenData :=
      { batch_range := (0, 2), batch_size := 2,
        current_state := 's', next_state := 'e' }
    ((runWarden cs 'i' 's' none true).1.state = cs.state
      ∧ (runWarden cs 'i' 's' none true).2 = true)
    ∧ ((runWarden cs 'i' 's' none false).2 = false
      ∧ ((runWarden cs 'i' 's' none false).1.state = 's'
        ↔ (runWarden cs 'i' 's' none false).1.tl_done = cs.length)
        ∨ 's' = cs.state)
    ∧ (∀ cs' : ChunkSlotData, cs'.state ≠ 'i' →
        runWarden cs' 'i' 's' none true = (cs', true))
    ∧ (cs.state ≠ w.current_state →
        wardenEnter w cs
          = (release_task_lock cs w.batch_range.1 w.batch_range.2 false, true)
        ∧ (wardenEnter w cs).1.state = cs.state) :=
  c2_state_warden
    { length := 2, state := 'i', tl_state := 'i',
      tl_reserved := 0, tl_done := 0 } 'i' 's' none
    { batch_range := (0, 2), batch_size := 2,
      current_state := 's', next_state := 'e' }
    rfl (by decide) (by decide)

/-! ### C5: background recomputation decision (JobRunner, spec 4.7) -/

/-- The three pipeline identifiers the job runner compares. -/
structure PpidIdent where
  generation : String
  data : String
  background : String
deriving DecidableEq, Repr

/-- Modelled from the spec: the DCNumJobRunner decision whether the
background must be recomputed (the runner source file is not part of
the snapshot; only its tests are).  Recomputation is required iff any
of the three identifiers generation, data, background stored on the
input file differs from the configured ones; a missing attribute
counts as different. -/
def background_needs_recompute (attrs : List (String × String))
    (job : PpidIdent) : Bool :=
  decide (attrs.lookup "pipeline:dcnum generation" ≠ some job.generation)
  || decide (attrs.lookup "pipeline:dcnum data" ≠ some job.data)
  || decide (attrs.lookup "pipeline:dcnum background" ≠ some job.background)

/-- Modelled from the spec: the background step of the job runner.  It
replaces the image_bg dataset by a freshly computed background (the
external computation result is the newbg argument, and Background.process
in feat_background/base.py additionally stamps the ppid attributes)
only when the identifiers demand it; otherwise the stored image_bg is
reused unchanged. -/
def task_background (job : PpidIdent) (attrs : List (String × String))
    (image_bg newbg : List Int) : List Int :=
  if background_needs_recompute attrs job then newbg else image_bg

/-- C5: the background is recomputed iff one of the three identifiers
differs; when all three match the stored image_bg is passed through
unchanged, so a marker pixel written into it beforehand survives. -/
theorem c5_background_recompute (job : PpidIdent)
    (attrs : List (String × String)) (image_bg newbg : List Int)
    (i : Nat) (marker : Int)
    (hmarker : image_bg[i]? = some marker) :
    (background_needs_recompute attrs job = false
      ↔ (attrs.lookup "pipeline:dcnum generation" = some job.generation
        ∧ attrs.lookup "pipeline:dcnum data" = some job.data
        ∧ attrs.lookup "pipeline:dcnum background" = some job.background))
    ∧ (background_needs_recompute attrs job = false →
        task_background job attrs image_bg newbg = image_bg
        ∧ (task_background job attrs image_bg newbg)[i]? = some marker)
    ∧ (background_needs_recompute attrs job = true →
        task_background job attrs image_bg newbg = newbg) := by
  refine ⟨?_, ?_, ?_⟩
  · unfold background_needs_recompute
    simp only [Bool.or_eq_false_iff, decide_eq_false_iff_not, not_not]
    tauto
  · intro h
    unfold task_background
    rw [h]
    exact ⟨rfl, hmarker⟩
  · intro h
    unfold task_background
    rw [h]
    rfl

/-- Witness for c5_background_recompute: identifiers all match, so the
marker pixel 200 at index 0 survives. -/
theorem c5_background_recompute_witness :
    let job : PpidIdent :=
      { generation := "11", data := "hdf:p=0.2645",
        background := "sparsemed:k=200^s=1^t=0^f=0.8" }
    let attrs : List (String × String) :=
      [("pipeline:dcnum generation", "11"),
       ("pipeline:dcnum data", "hdf:p=0.2645"),
       ("pipeline:dcnum background", "sparsemed:k=200^s=1^t=0^f=0.8")]
    (background_needs_recompute attrs job = false
      ↔ (attrs.lookup "pipeline:dcnum generation" = some job.generation
        ∧ attrs.lookup "pipeline:dcnum data" = some job.data
        ∧ attrs.lookup "pipeline:dcnum background" = some job.background))
    ∧ (background_needs_recompute attrs job = false →
        task_background job attrs [200, 7] [3, 4] = [200, 7]
        ∧ (task_background job attrs [200, 7] [3, 4])[0]? = some 200)
    ∧ (background_needs_recompute attrs job = true →
        task_background job attrs [200, 7] [3, 4] = [3, 4]) :=
  c5_background_recompute _ _ [200, 7] [3, 4] 0 200 rfl

/-! ### C1: QueueCollectorBase.run window processing -/

/-- An events dictionary: feature name to the array of per-event values
of that feature for one frame (outer axis only; inner axes do not
matter for ordering). -/
abbrev Events := List (String × List Int)

/-- One message on the event queue: (frame_index, events_dict). -/
structure QMsg where
  index : Nat
  events : Events
deriving DecidableEq, Repr

/-- Sum of the first k entries: the offset of frame k in the dense
window arrays. -/
def off (l : List Nat) (k : Nat) : Nat := (l.take k).sum

/-- Cumulative number of events up to and including frame loc (the
nev_idx array of the spec). -/
def nevIdx (l : List Nat) (loc : Nat) : Nat := (l.take (loc + 1)).sum

/-- Numpy slice assignment arr[s : s + len(vals)] = vals. -/
def writeSlice {α : Type} (arr : List α) (s : Nat) (vals : List α) :
    List α :=
  arr.take s ++ vals ++ arr.drop (s + vals.length)

/-- Modelled from the spec: the EventStash per-window sorter (the file
event_stash.py is not part of the snapshot; only its caller
queue_collector_base.py is).  Constructed with the index offset and the
per-frame event counts of one window; events holds the dense
per-feature arrays (allocated zero-filled on first sight of a
feature), indices_for_data the frame index of every event position,
and done the per-frame completion bits. -/
structure EventStash where
  index_offset : Nat
  feat_nevents : List Nat
  events : Events
  indices_for_data : List Nat
  done : List Bool
deriving DecidableEq, Repr

/-- Total number of events in the stash window. -/
def EventStash.size (s : EventStash) : Nat := s.feat_nevents.sum

/-- Number of frames in the stash window. -/
def EventStash.num_frames (s : EventStash) : Nat := s.feat_nevents.length

/-- Modelled from the spec: EventStash construction. -/
def EventStash.init (index_offset : Nat) (feat_nevents : List Nat) :
    EventStash :=
  { index_offset := index_offset, feat_nevents := feat_nevents,
    events := [],
    indices_for_data := List.replicate feat_nevents.sum 0,
    done := List.replicate feat_nevents.length false }

/-- Write one feature of one frame into the dense arrays: lazily
allocate a zero-filled array of the window size (require_feature), then
place the payload so that it ends at position stop. -/
def stashWriteFeat (size stop : Nat) (es : Events) (f : String)
    (a : List Int) : Events :=
  assocUpdate es f
    (writeSlice ((es.lookup f).getD (List.replicate size 0))
      (stop - a.length) a)

/-- Modelled from the spec: EventStash.add_events.  With
loc = index - index_offset every feature array of the message is placed
at positions nev_idx(loc) - n .. nev_idx(loc); the same positions of
indices_for_data receive the frame index, and done(loc) is set. -/
def EventStash.add_events (s : EventStash) (index : Nat) (evts : Events) :
    EventStash :=
  let loc := index - s.index_offset
  let stop := nevIdx s.feat_nevents loc
  let nev := s.feat_nevents.getD loc 0
  { s with
    events := evts.foldl
      (fun es fa => stashWriteFeat s.feat_nevents.sum stop es fa.1 fa.2)
      s.events,
    indices_for_data := writeSlice s.indices_for_data (stop - nev)
      (List.replicate nev index),
    done := s.done.set loc true }

/-- Modelled from the spec: EventStash.is_complete. -/
def EventStash.is_complete (s : EventStash) : Bool :=
  s.done.all (fun b => b)

/-- The in-window test of the run loop (queue_collector_base.py):
last_idx less or equal idx less than last_idx + write_threshold. -/
def inWindow (last W idx : Nat) : Bool :=
  decide (last ≤ idx) && decide (idx < last + W)

/-- Embedding of the buffer drain of QueueCollectorBase.run: every item
of the buffer deque is popped once; in-window items go into the stash,
the rest are put back (in order) at the end of the buffer. -/
def drainBuffer (last W : Nat) (st : EventStash × List QMsg)
    (buf : List QMsg) : EventStash × List QMsg :=
  buf.foldl (fun st m =>
    if inWindow last W m.index then (st.1.add_events m.index m.events, st.2)
    else (st.1, st.2 ++ [m])) st

/-- Embedding of the queue loop of QueueCollectorBase.run: take
messages from the event queue in arrival order; in-window items go into
the stash, others onto the buffer; stop as soon as the stash is
complete.  The arguments and results carry the stash, the buffer and
the remaining queue. -/
def consumeQueue (last W : Nat) :
    EventStash → List QMsg → List QMsg →
      EventStash × List QMsg × List QMsg
  | stash, buf, [] => (stash, buf, [])
  | stash, buf, m :: rest =>
    let p := if inWindow last W m.index
             then (stash.add_events m.index m.events, buf)
             else (stash, buf ++ [m])
    if p.1.is_complete then (p.1, p.2, rest)
    else consumeQueue last W p.1 p.2 rest

/-- What one window pushes onto writer_dq: the per-feature blocks, the
index_unmapped array and the nevents array. -/
structure WindowOutput where
  feature_blocks : Events
  index_unmapped : List Nat
  nevents : List Nat
deriving DecidableEq, Repr

/-- The event counts of the current window as natural numbers. -/
def windowNevents (fn : List Int) (last W : Nat) : List Nat :=
  ((fn.drop last).take W).map Int.toNat

/-- Embedding of one iteration of the while loop of
QueueCollectorBase.run (queue_collector_base.py): slice the shared
feat_nevents array; bail out (none) when the window still contains -1
entries or is empty; otherwise build the stash, drain the buffer, read
the queue until the stash is complete, and emit the feature blocks, the
index_unmapped array (indices_for_data as uint32) and the nevents array
(the window counts indexed by indices - index_offset).  The none result
also stands for the end of data and for a queue that ends before the
stash completes (where the source would block and retry). -/
def collect_window (fn : List Int) (last W : Nat) (buf q : List QMsg) :
    Option (WindowOutput × List QMsg × List QMsg) :=
  let cur := (fn.drop last).take W
  if cur.any (fun x => decide (x < 0)) then none
  else if cur.isEmpty then none
  else
    let curN := cur.map Int.toNat
    let d := drainBuffer last W (EventStash.init last curN, []) buf
    let r := if d.1.is_complete then (d.1, d.2, q)
             else consumeQueue last W d.1 d.2 q
    if r.1.is_complete then
      some ({ feature_blocks := r.1.events,
              index_unmapped := r.1.indices_for_data,
              nevents := r.1.indices_for_data.map
                (fun i => curN.getD (i - last) 0) },
            r.2.1, r.2.2)
    else none

/-! #### Offset and slice arithmetic for the stash proofs -/

theorem off_zero (l : List Nat) : off l 0 = 0 := rfl

theorem off_succ (l : List Nat) (k : Nat) (h : k < l.length) :
    off l (k + 1) = off l k + l.getD k 0 := by
  unfold off
  rw [List.take_succ, List.sum_append]
  congr 1
  rw [List.getElem?_eq_getElem h]
  simp [List.getD_eq_getElem?_getD, List.getElem?_eq_getElem h]

theorem off_mono (l : List Nat) {k k' : Nat} (h : k ≤ k') :
    off l k ≤ off l k' := by
  unfold off
  calc (l.take k).sum = ((l.take k').take k).sum := by
        rw [List.take_take, min_eq_left h]
    _ ≤ ((l.take k').take k).sum + ((l.take k').drop k).sum := Nat.le_add_right _ _
    _ = (l.take k').sum := by rw [← List.sum_append, List.take_append_drop]

theorem off_le_sum (l : List Nat) (k : Nat) : off l k ≤ l.sum := by
  unfold off
  calc (l.take k).sum ≤ (l.take k).sum + (l.drop k).sum := Nat.le_add_right _ _
    _ = l.sum := by rw [← List.sum_append, List.take_append_drop]

theorem off_length (l : List Nat) : off l l.length = l.sum := by
  unfold off
  rw [List.take_length]

theorem nevIdx_off (l : List Nat) (loc : Nat) :
    nevIdx l loc = off l (loc + 1) := rfl

theorem length_writeSlice {α : Type} (arr v : List α) (s : Nat)
    (h : s + v.length ≤ arr.length) :
    (writeSlice arr s v).length = arr.length := by
  unfold writeSlice
  simp only [List.length_append, List.length_take, List.length_drop]
  omega

theorem take_writeSlice {α : Type} (arr v : List α) {m s : Nat}
    (hm : m ≤ s) (hs : s ≤ arr.length) :
    (writeSlice arr s v).take m = arr.take m := by
  unfold writeSlice
  rw [List.append_assoc,
    List.take_append_of_le_length (by simp; omega), List.take_take,
    min_eq_left hm]

theorem drop_writeSlice {α : Type} (arr v : List α) {m s : Nat}
    (hm : s + v.length ≤ m) (hs : s ≤ arr.length) :
    (writeSlice arr s v).drop m = arr.drop m := by
  unfold writeSlice
  have h1 : (arr.take s ++ v).length = s + v.length := by simp; omega
  rw [List.append_assoc, ← List.append_assoc]
  rw [show m = (arr.take s ++ v).length + (m - (s + v.length)) from by
    rw [h1]; omega]
  rw [List.drop_append, List.drop_drop]
  congr 1
  omega

theorem writeSlice_at {α : Type} (arr v : List α) {s : Nat}
    (hs : s ≤ arr.length) :
    ((writeSlice arr s v).drop s).take v.length = v := by
  unfold writeSlice
  have h1 : (arr.take s).length = s := by simp; omega
  rw [List.append_assoc, List.drop_left' h1, List.take_left]

/-- The events of frame k inside a dense window array. -/
def region {α : Type} (arr : List α) (l : List Nat) (k : Nat) : List α :=
  (arr.drop (off l k)).take (l.getD k 0)

theorem region_congr_take {α : Type} (x y : List α) (l : List Nat)
    (k t : Nat) (ht : off l k + l.getD k 0 ≤ t)
    (hxy : x.take t = y.take t) : region x l k = region y l k := by
  unfold region
  have hx : (x.drop (off l k)).take (l.getD k 0)
      = ((x.take t).drop (off l k)).take (l.getD k 0) := by
    rw [List.drop_take]
    rw [List.take_take, min_eq_left (by omega)]
  have hy : (y.drop (off l k)).take (l.getD k 0)
      = ((y.take t).drop (off l k)).take (l.getD k 0) := by
    rw [List.drop_take]
    rw [List.take_take, min_eq_left (by omega)]
  rw [hx, hy, hxy]

theorem region_congr_drop {α : Type} (x y : List α) (l : List Nat)
    (k m : Nat) (hm : m ≤ off l k) (hxy : x.drop m = y.drop m) :
    region x l k = region y l k := by
  unfold region
  rw [show off l k = m + (off l k - m) from by omega, ← List.drop_drop,
    ← List.drop_drop, hxy]

theorem region_writeSlice_self {α : Type} (arr v : List α) (l : List Nat)
    (k : Nat) (hk : k < l.length) (hlen : arr.length = l.sum)
    (hv : v.length = l.getD k 0) :
    region (writeSlice arr (off l k) v) l k = v := by
  unfold region
  have hs : off l k ≤ arr.length := by rw [hlen]; exact off_le_sum l k
  rw [← hv]
  exact writeSlice_at arr v hs

theorem region_writeSlice_lt {α : Type} (arr v : List α) (l : List Nat)
    {k k' : Nat} (hk : k < l.length) (hk' : k' < k)
    (hlen : arr.length = l.sum) :
    region (writeSlice arr (off l k) v) l k' = region arr l k' := by
  have hs : off l k ≤ arr.length := by rw [hlen]; exact off_le_sum l k
  refine region_congr_take _ _ l k' (off l k) ?_ ?_
  · rw [← off_succ l k' (by omega)]
    exact off_mono l hk'
  · exact take_writeSlice arr v (le_refl _) hs

theorem region_writeSlice_gt {α : Type} (arr v : List α) (l : List Nat)
    {k k' : Nat} (hk : k < l.length) (hk' : k < k')
    (hlen : arr.length = l.sum) (hv : v.length = l.getD k 0) :
    region (writeSlice arr (off l k) v) l k' = region arr l k' := by
  have hs : off l k ≤ arr.length := by rw [hlen]; exact off_le_sum l k
  refine region_congr_drop _ _ l k' (off l k + v.length) ?_ ?_
  · rw [hv, ← off_succ l k hk]
    exact off_mono l hk'
  · exact drop_writeSlice arr v (le_refl _) hs

theorem region_replicate {α : Type} (x : α) (n : Nat) (l : List Nat)
    (k : Nat) (hk : k < l.length) (hn : l.sum ≤ n) :
    region (List.replicate n x) l k = List.replicate (l.getD k 0) x := by
  unfold region
  rw [List.drop_replicate, List.take_replicate]
  congr 1
  have h1 : off l k + l.getD k 0 ≤ l.sum := by
    rw [← off_succ l k hk]
    exact off_le_sum l (k + 1)
  omega

theorem lookup_mem {β : Type} (l : List (String × β)) (f : String) (b : β)
    (h : l.lookup f = some b) : (f, b) ∈ l := by
  induction l with
  | nil => simp [List.lookup] at h
  | cons hd tl ih =>
    by_cases he : f = hd.1
    · have hbeq : (f == hd.1) = true := by simpa using he
      simp only [List.lookup, hbeq] at h
      cases h
      subst he
      simp
    · have hbeq : (f == hd.1) = false := by simpa using he
      simp only [List.lookup, hbeq] at h
      exact List.mem_cons_of_mem _ (ih h)

theorem getD_set_self (l : List Bool) (k : Nat) (b : Bool)
    (h : k < l.length) : (l.set k b).getD k false = b := by
  rw [List.getD_eq_getElem?_getD, List.getElem?_set_self (by omega)]
  simp

theorem getD_set_ne (l : List Bool) (k j : Nat) (b : Bool) (h : k ≠ j) :
    (l.set k b).getD j false = l.getD j false := by
  rw [List.getD_eq_getElem?_getD, List.getElem?_set_ne h,
    ← List.getD_eq_getElem?_getD]

/-! #### The stash invariant -/

theorem lookup_eq_none_of_not_mem {β : Type} (l : List (String × β))
    (f : String) (h : f ∉ l.map Prod.fst) : l.lookup f = none := by
  induction l with
  | nil => rfl
  | cons hd tl ih =>
    have h1 : f ≠ hd.1 := by
      intro he
      exact h (by simp [he])
    have h2 : f ∉ tl.map Prod.fst := by
      intro hm
      exact h (by simp [hm])
    have hbeq : (f == hd.1) = false := by simpa using h1
    simp only [List.lookup, hbeq]
    exact ih h2

theorem foldl_stashWrite_lookup_none (size stop : Nat) (evts : Events)
    (es : Events) (f : String) (ha : evts.lookup f = none) :
    (evts.foldl (fun es fa => stashWriteFeat size stop es fa.1 fa.2)
      es).lookup f = es.lookup f := by
  induction evts generalizing es with
  | nil => rfl
  | cons hd tl ih =>
    have hne : f ≠ hd.1 := by
      intro he
      have hbeq : (f == hd.1) = true := by simpa using he
      simp [List.lookup, hbeq] at ha
    have hbeq : (f == hd.1) = false := by simpa using hne
    simp only [List.lookup, hbeq] at ha
    simp only [List.foldl_cons]
    rw [ih _ ha]
    unfold stashWriteFeat
    exact assocUpdate_lookup_other _ _ _ _ hne

theorem foldl_stashWrite_lookup_some (size stop : Nat) (evts : Events)
    (es : Events) (f : String) (a : List Int)
    (hnodup : (evts.map Prod.fst).Nodup) (ha : evts.lookup f = some a) :
    (evts.foldl (fun es fa => stashWriteFeat size stop es fa.1 fa.2)
      es).lookup f
    = some (writeSlice ((es.lookup f).getD (List.replicate size 0))
        (stop - a.length) a) := by
  induction evts generalizing es with
  | nil => simp [List.lookup] at ha
  | cons hd tl ih =>
    simp only [List.foldl_cons]
    by_cases he : f = hd.1
    · have hbeq : (f == hd.1) = true := by simpa using he
      simp only [List.lookup, hbeq] at ha
      cases ha
      have hnotin : f ∉ tl.map Prod.fst := by
        subst he
        exact (List.nodup_cons.mp (by simpa using hnodup)).1
      rw [foldl_stashWrite_lookup_none _ _ _ _ _
        (lookup_eq_none_of_not_mem _ _ hnotin)]
      unfold stashWriteFeat
      rw [he]
      exact assocUpdate_lookup_self _ _ _
    · have hbeq : (f == hd.1) = false := by simpa using he
      simp only [List.lookup, hbeq] at ha
      have htl : (tl.map Prod.fst).Nodup :=
        (List.nodup_cons.mp (by simpa using hnodup)).2
      rw [ih _ htl ha]
      unfold stashWriteFeat
      rw [assocUpdate_lookup_other _ _ _ _ he]

/-- The collector invariant: what the stash looks like after any set of
frames (recorded in done) has been added.  The regions of done frames
hold their payload and frame index; all other regions are still zero
filled; features never seen stay unallocated. -/
def StashInv (last : Nat) (curN : List Nat) (ev : Nat → Events)
    (st : EventStash) : Prop :=
  st.index_offset = last
  ∧ st.feat_nevents = curN
  ∧ st.done.length = curN.length
  ∧ st.indices_for_data.length = curN.sum
  ∧ (∀ k, k < curN.length →
      region st.indices_for_data curN k
        = if st.done.getD k false
          then List.replicate (curN.getD k 0) (last + k)
          else List.replicate (curN.getD k 0) 0)
  ∧ (∀ f arr, st.events.lookup f = some arr →
      arr.length = curN.sum ∧
      ∀ k, k < curN.length →
        region arr curN k
          = if st.done.getD k false
            then ((ev k).lookup f).getD
              (List.replicate (curN.getD k 0) 0)
            else List.replicate (curN.getD k 0) 0)
  ∧ (∀ f, st.events.lookup f = none →
      ∀ k, k < curN.length → st.done.getD k false = true →
        ((ev k).lookup f) = none)

theorem add_events_def (st : EventStash) (index : Nat) (evts : Events) :
    st.add_events index evts = { st with
      events := evts.foldl (fun es fa => stashWriteFeat
        st.feat_nevents.sum
        (nevIdx st.feat_nevents (index - st.index_offset)) es fa.1 fa.2)
        st.events,
      indices_for_data := writeSlice st.indices_for_data
        (nevIdx st.feat_nevents (index - st.index_offset)
          - st.feat_nevents.getD (index - st.index_offset) 0)
        (List.replicate
          (st.feat_nevents.getD (index - st.index_offset) 0) index),
      done := st.done.set (index - st.index_offset) true } := rfl

theorem stash_init_inv (last : Nat) (curN : List Nat) (ev : Nat → Events) :
    StashInv last curN ev (EventStash.init last curN) := by
  unfold EventStash.init StashInv
  refine ⟨rfl, rfl, by simp, by simp, ?_, ?_, ?_⟩
  · intro k hk
    have hd : (List.replicate curN.length false).getD k false = false := by
      rw [List.getD_eq_getElem?_getD, List.getElem?_replicate]
      simp [hk]
    rw [hd]
    simp only [if_false, Bool.false_eq_true]
    exact region_replicate _ _ _ _ hk (le_refl _)
  · intro f arr h
    simp [List.lookup] at h
  · intro f h k hk hdone
    rw [List.getD_eq_getElem?_getD, List.getElem?_replicate] at hdone
    simp [hk] at hdone

theorem add_events_inv (last : Nat) (curN : List Nat) (ev : Nat → Events)
    (st : EventStash) (k0 : Nat) (hk0 : k0 < curN.length)
    (hinv : StashInv last curN ev st)
    (hev : ∀ p ∈ ev k0, p.2.length = curN.getD k0 0)
    (hnodup : ((ev k0).map Prod.fst).Nodup) :
    StashInv last curN ev (st.add_events (last + k0) (ev k0))
    ∧ (st.add_events (last + k0) (ev k0)).done = st.done.set k0 true := by
  obtain ⟨hio, hfn, hdl, hil, hir, hevs, hnone⟩ := hinv
  have hloc : last + k0 - st.index_offset = k0 := by rw [hio]; omega
  have hnev : st.feat_nevents.getD (last + k0 - st.index_offset) 0
      = curN.getD k0 0 := by rw [hloc, hfn]
  have hstop : nevIdx st.feat_nevents (last + k0 - st.index_offset)
      = off curN k0 + curN.getD k0 0 := by
    rw [hloc, hfn, nevIdx_off, off_succ _ _ hk0]
  have hstart : nevIdx st.feat_nevents (last + k0 - st.index_offset)
      - st.feat_nevents.getD (last + k0 - st.index_offset) 0
      = off curN k0 := by rw [hstop, hnev]; omega
  have hsz : st.feat_nevents.sum = curN.sum := by rw [hfn]
  have hfit : off curN k0 + curN.getD k0 0 ≤ curN.sum := by
    rw [← off_succ _ _ hk0]
    exact off_le_sum _ _
  have hevents' : (st.add_events (last + k0) (ev k0)).events
      = (ev k0).foldl (fun es fa => stashWriteFeat curN.sum
          (off curN k0 + curN.getD k0 0) es fa.1 fa.2) st.events := by
    rw [add_events_def]
    simp only [hsz, hstop]
  have hindices' : (st.add_events (last + k0) (ev k0)).indices_for_data
      = writeSlice st.indices_for_data (off curN k0)
          (List.replicate (curN.getD k0 0) (last + k0)) := by
    rw [add_events_def, hnev, hstop, Nat.add_sub_cancel]
  have hdone' : (st.add_events (last + k0) (ev k0)).done
      = st.done.set k0 true := by
    rw [add_events_def]
    simp only [hloc]
  have hioeq : (st.add_events (last + k0) (ev k0)).index_offset
      = st.index_offset := by rw [add_events_def]
  have hfneq : (st.add_events (last + k0) (ev k0)).feat_nevents
      = st.feat_nevents := by rw [add_events_def]
  refine ⟨⟨?_, ?_, ?_, ?_, ?_, ?_, ?_⟩, hdone'⟩
  · rw [hioeq, hio]
  · rw [hfneq, hfn]
  · rw [hdone', List.length_set, hdl]
  · rw [hindices']
    rw [length_writeSlice]
    · exact hil
    · simp only [List.length_replicate]
      omega
  · intro k hk
    rw [hindices', hdone']
    by_cases hkk : k = k0
    · subst hkk
      rw [region_writeSlice_self _ _ _ _ hk hil (by simp)]
      rw [getD_set_self _ _ _ (by omega)]
      simp
    · have hreg : region (writeSlice st.indices_for_data (off curN k0)
          (List.replicate (curN.getD k0 0) (last + k0))) curN k
          = region st.indices_for_data curN k := by
        rcases Nat.lt_or_ge k k0 with hlt | hge
        · exact region_writeSlice_lt _ _ _ hk0 hlt hil
        · exact region_writeSlice_gt _ _ _ hk0 (by omega) hil (by simp)
      rw [hreg, getD_set_ne _ _ _ _ (fun he => hkk he.symm)]
      exact hir k hk
  · intro f arr harr
    rw [hevents'] at harr
    rw [hdone']
    cases hf0 : (ev k0).lookup f with
    | some a =>
      rw [foldl_stashWrite_lookup_some _ _ _ _ _ _ hnodup hf0] at harr
      cases harr
      have halen : a.length = curN.getD k0 0 :=
        hev (f, a) (lookup_mem _ _ _ hf0)
      have hstarta : off curN k0 + curN.getD k0 0 - a.length
          = off curN k0 := by omega
      rw [hstarta]
      cases hold : st.events.lookup f with
      | some arr0 =>
        obtain ⟨hl0, hr0⟩ := hevs f arr0 hold
        simp only [Option.getD_some]
        constructor
        · rw [length_writeSlice _ _ _ (by rw [hl0]; omega)]
          exact hl0
        · intro k hk
          by_cases hkk : k = k0
          · subst hkk
            rw [region_writeSlice_self _ _ _ _ hk hl0 halen]
            rw [getD_set_self _ _ _ (by omega), if_pos rfl, hf0,
              Option.getD_some]
          · have hreg : region (writeSlice arr0 (off curN k0) a) curN k
                = region arr0 curN k := by
              rcases Nat.lt_or_ge k k0 with hlt | hge
              · exact region_writeSlice_lt _ _ _ hk0 hlt hl0
              · exact region_writeSlice_gt _ _ _ hk0 (by omega) hl0 halen
            rw [hreg, getD_set_ne _ _ _ _ (fun he => hkk he.symm)]
            exact hr0 k hk
      | none =>
        simp only [Option.getD_none]
        have hzlen : (List.replicate curN.sum (0 : Int)).length
            = curN.sum := by simp
        constructor
        · rw [length_writeSlice _ _ _ (by rw [hzlen]; omega)]
          exact hzlen
        · intro k hk
          by_cases hkk : k = k0
          · subst hkk
            rw [region_writeSlice_self _ _ _ _ hk hzlen halen]
            rw [getD_set_self _ _ _ (by omega), if_pos rfl, hf0,
              Option.getD_some]
          · have hreg : region (writeSlice (List.replicate curN.sum 0)
                (off curN k0) a) curN k
                = region (List.replicate curN.sum (0 : Int)) curN k := by
              rcases Nat.lt_or_ge k k0 with hlt | hge
              · exact region_writeSlice_lt _ _ _ hk0 hlt hzlen
              · exact region_writeSlice_gt _ _ _ hk0 (by omega) hzlen halen
            rw [hreg, region_replicate _ _ _ _ hk (le_refl _),
              getD_set_ne _ _ _ _ (fun he => hkk he.symm)]
            by_cases hdk : st.done.getD k false = true
            · rw [if_pos hdk, hnone f hold k hk hdk]
              simp
            · rw [if_neg hdk]
    | none =>
      rw [foldl_stashWrite_lookup_none _ _ _ _ _ hf0] at harr
      obtain ⟨hl0, hr0⟩ := hevs f arr harr
      refine ⟨hl0, ?_⟩
      intro k hk
      by_cases hkk : k = k0
      · subst hkk
        rw [getD_set_self _ _ _ (by omega), if_pos rfl, hf0,
          Option.getD_none]
        have hthis := hr0 k hk
        by_cases hdk : st.done.getD k false = true
        · rw [if_pos hdk, hf0, Option.getD_none] at hthis
          exact hthis
        · rw [if_neg hdk] at hthis
          exact hthis
      · rw [getD_set_ne _ _ _ _ (fun he => hkk he.symm)]
        exact hr0 k hk
  · intro f hf k hk hdk
    rw [hevents'] at hf
    rw [hdone'] at hdk
    cases hf0 : (ev k0).lookup f with
    | some a =>
      rw [foldl_stashWrite_lookup_some _ _ _ _ _ _ hnodup hf0] at hf
      cases hf
    | none =>
      rw [foldl_stashWrite_lookup_none _ _ _ _ _ hf0] at hf
      by_cases hkk : k = k0
      · subst hkk
        exact hf0
      · rw [getD_set_ne _ _ _ _ (fun he => hkk he.symm)] at hdk
        exact hnone f hf k hk hdk

theorem is_complete_iff (st : EventStash) :
    st.is_complete = true
    ↔ ∀ k, k < st.done.length → st.done.getD k false = true := by
  unfold EventStash.is_complete
  rw [List.all_eq_true]
  constructor
  · intro h k hk
    rw [List.getD_eq_getElem?_getD, List.getElem?_eq_getElem hk]
    simpa using h _ (List.getElem_mem hk)
  · intro h b hb
    rw [List.mem_iff_getElem] at hb
    obtain ⟨k, hk, he⟩ := hb
    have := h k hk
    rw [List.getD_eq_getElem?_getD, List.getElem?_eq_getElem hk] at this
    simpa [he] using this

theorem inWindow_frame (last W k : Nat) (h : k < W) :
    inWindow last W (last + k) = true := by
  unfold inWindow
  simp only [Bool.and_eq_true, decide_eq_true_eq]
  omega

theorem inWindow_index_eq (last W : Nat) (m : QMsg)
    (h : inWindow last W m.index = true) : last + (m.index - last) = m.index := by
  unfold inWindow at h
  simp at h
  omega

theorem drainBuffer_ok (last W : Nat) (curN : List Nat) (ev : Nat → Events)
    (hKW : curN.length ≤ W)
    (hev : ∀ k, k < curN.length → ∀ p ∈ ev k, p.2.length = curN.getD k 0)
    (hnodup : ∀ k, k < curN.length → ((ev k).map Prod.fst).Nodup) :
    ∀ (buf : List QMsg) (st : EventStash) (kept : List QMsg),
    StashInv last curN ev st →
    (∀ m ∈ buf, inWindow last W m.index = true →
      m.index - last < curN.length ∧ m.events = ev (m.index - last)) →
    StashInv last curN ev (drainBuffer last W (st, kept) buf).1
    ∧ (∀ k, k < curN.length → st.done.getD k false = true →
        (drainBuffer last W (st, kept) buf).1.done.getD k false = true)
    ∧ (∀ k, k < curN.length → QMsg.mk (last + k) (ev k) ∈ buf →
        (drainBuffer last W (st, kept) buf).1.done.getD k false = true) := by
  intro buf
  induction buf with
  | nil =>
    intro st kept hinv harr
    refine ⟨hinv, fun k _ h => h, fun k _ hmem => absurd hmem (by simp)⟩
  | cons m rest ih =>
    intro st kept hinv harr
    have hstep : drainBuffer last W (st, kept) (m :: rest)
        = drainBuffer last W
            (if inWindow last W m.index
             then (st.add_events m.index m.events, kept)
             else (st, kept ++ [m])) rest := by
      unfold drainBuffer
      rw [List.foldl_cons]
    by_cases hw : inWindow last W m.index = true
    · obtain ⟨hk1, hevm⟩ := harr m (by simp) hw
      have hmidx : last + (m.index - last) = m.index := inWindow_index_eq _ _ _ hw
      have hadd : st.add_events m.index m.events
          = st.add_events (last + (m.index - last)) (ev (m.index - last)) := by
        rw [hmidx, hevm]
      obtain ⟨hinv1, hdone1⟩ := add_events_inv last curN ev st
        (m.index - last) hk1 hinv (hev _ hk1) (hnodup _ hk1)
      have hdl : st.done.length = curN.length := hinv.2.2.1
      rw [hstep, if_pos hw, hadd]
      obtain ⟨ha, hb, hc⟩ := ih _ kept hinv1
        (fun mm hm hww => harr mm (by simp [hm]) hww)
      refine ⟨ha, ?_, ?_⟩
      · intro k hk hkd
        refine hb k hk ?_
        rw [hdone1]
        by_cases hkk : m.index - last = k
        · rw [hkk, getD_set_self _ _ _ (by omega)]
        · rw [getD_set_ne _ _ _ _ hkk]
          exact hkd
      · intro k hk hmem
        rcases List.mem_cons.mp hmem with hme | hme
        · have hkk : m.index - last = k := by
            have : m.index = last + k := by rw [← hme]
            omega
          refine hb k hk ?_
          rw [hdone1, hkk, getD_set_self _ _ _ (by omega)]
        · exact hc k hk hme
    · rw [hstep, if_neg hw]
      obtain ⟨ha, hb, hc⟩ := ih st (kept ++ [m]) hinv
        (fun mm hm hww => harr mm (by simp [hm]) hww)
      refine ⟨ha, hb, ?_⟩
      intro k hk hmem
      rcases List.mem_cons.mp hmem with hme | hme
      · exfalso
        apply hw
        rw [← hme]
        exact inWindow_frame last W k (by omega)
      · exact hc k hk hme

theorem consumeQueue_cons (last W : Nat) (st : EventStash)
    (buf : List QMsg) (m : QMsg) (rest : List QMsg) :
    consumeQueue last W st buf (m :: rest)
    = (let p := if inWindow last W m.index
                then (st.add_events m.index m.events, buf)
                else (st, buf ++ [m])
       if p.1.is_complete then (p.1, p.2, rest)
       else consumeQueue last W p.1 p.2 rest) := rfl

theorem consumeQueue_cons_in (last W : Nat) (st : EventStash)
    (buf : List QMsg) (m : QMsg) (rest : List QMsg)
    (hw : inWindow last W m.index = true) :
    consumeQueue last W st buf (m :: rest)
    = if (st.add_events m.index m.events).is_complete
      then (st.add_events m.index m.events, buf, rest)
      else consumeQueue last W (st.add_events m.index m.events) buf rest := by
  rw [consumeQueue_cons, if_pos hw]

theorem consumeQueue_cons_out (last W : Nat) (st : EventStash)
    (buf : List QMsg) (m : QMsg) (rest : List QMsg)
    (hw : ¬ inWindow last W m.index = true) :
    consumeQueue last W st buf (m :: rest)
    = if st.is_complete
      then (st, buf ++ [m], rest)
      else consumeQueue last W st (buf ++ [m]) rest := by
  rw [consumeQueue_cons, if_neg hw]

theorem consumeQueue_ok (last W : Nat) (curN : List Nat) (ev : Nat → Events)
    (hKW : curN.length ≤ W)
    (hev : ∀ k, k < curN.length → ∀ p ∈ ev k, p.2.length = curN.getD k 0)
    (hnodup : ∀ k, k < curN.length → ((ev k).map Prod.fst).Nodup) :
    ∀ (q : List QMsg) (st : EventStash) (buf : List QMsg),
    StashInv last curN ev st →
    (∀ m ∈ q, inWindow last W m.index = true →
      m.index - last < curN.length ∧ m.events = ev (m.index - last)) →
    (∀ k, k < curN.length → st.done.getD k false = true
      ∨ QMsg.mk (last + k) (ev k) ∈ q) →
    st.is_complete = false →
    StashInv last curN ev (consumeQueue last W st buf q).1
    ∧ (consumeQueue last W st buf q).1.is_complete = true := by
  intro q
  induction q with
  | nil =>
    intro st buf hinv harr hmiss hincomp
    exfalso
    have hdl : st.done.length = curN.length := hinv.2.2.1
    have : st.is_complete = true := by
      rw [is_complete_iff]
      intro k hk
      rcases hmiss k (by omega) with h | h
      · exact h
      · exact absurd h (by simp)
    rw [this] at hincomp
    cases hincomp
  | cons m rest ih =>
    intro st buf hinv harr hmiss hincomp
    by_cases hw : inWindow last W m.index = true
    · obtain ⟨hk1, hevm⟩ := harr m (by simp) hw
      have hmidx : last + (m.index - last) = m.index := inWindow_index_eq _ _ _ hw
      have hadd : st.add_events m.index m.events
          = st.add_events (last + (m.index - last)) (ev (m.index - last)) := by
        rw [hmidx, hevm]
      obtain ⟨hinv1, hdone1⟩ := add_events_inv last curN ev st
        (m.index - last) hk1 hinv (hev _ hk1) (hnodup _ hk1)
      have hdl : st.done.length = curN.length := hinv.2.2.1
      rw [consumeQueue_cons_in last W st buf m rest hw]
      by_cases hc : (st.add_events m.index m.events).is_complete = true
      · rw [if_pos hc]
        rw [hadd] at hc ⊢
        exact ⟨hinv1, hc⟩
      · rw [if_neg hc]
        rw [hadd] at hc ⊢
        refine ih _ buf hinv1
          (fun mm hm hww => harr mm (by simp [hm]) hww) ?_ (by simpa using hc)
        intro k hk
        by_cases hkk : m.index - last = k
        · left
          rw [hdone1, hkk, getD_set_self _ _ _ (by omega)]
        · rcases hmiss k hk with h | h
          · left
            rw [hdone1, getD_set_ne _ _ _ _ hkk]
            exact h
          · rcases List.mem_cons.mp h with hme | hme
            · exfalso
              apply hkk
              have : m.index = last + k := by rw [← hme]
              omega
            · right
              exact hme
    · rw [consumeQueue_cons_out last W st buf m rest hw,
        if_neg (by simp [hincomp])]
      refine ih st (buf ++ [m]) hinv
        (fun mm hm hww => harr mm (by simp [hm]) hww) ?_ hincomp
      intro k hk
      rcases hmiss k hk with h | h
      · left
        exact h
      · rcases List.mem_cons.mp h with hme | hme
        · exfalso
          apply hw
          rw [← hme]
          exact inWindow_frame last W k (by omega)
        · right
          exact hme

theorem eq_join_of_regions {α : Type} (l : List Nat) :
    ∀ (arr : List α) (g : Nat → List α),
    arr.length = l.sum →
    (∀ k, k < l.length → region arr l k = g k) →
    arr = ((List.range l.length).map g).flatten := by
  induction l with
  | nil =>
    intro arr g hlen _
    have : arr = [] := List.eq_nil_of_length_eq_zero (by simpa using hlen)
    simp [this]
  | cons c l' ih =>
    intro arr g hlen hreg
    have hlc : arr.length = c + l'.sum := by simpa using hlen
    have h0 : arr.take c = g 0 := by
      have := hreg 0 (by simp)
      unfold region at this
      simpa [off] using this
    have htail : arr.drop c
        = ((List.range l'.length).map (fun k => g (k + 1))).flatten := by
      refine ih (arr.drop c) (fun k => g (k + 1)) ?_ ?_
      · simp [hlc]
      · intro k hk
        have := hreg (k + 1) (by simpa using Nat.succ_lt_succ hk)
        unfold region at this ⊢
        have hoff : off (c :: l') (k + 1) = c + off l' k := by
          unfold off
          simp [List.sum_cons]
        rw [List.drop_drop]
        rw [hoff] at this
        simpa using this
    have hsplit : arr = arr.take c ++ arr.drop c :=
      (List.take_append_drop c arr).symm
    rw [hsplit, h0, htail]
    have hrange : List.range (c :: l').length
        = 0 :: (List.range l'.length).map Nat.succ := by
      simp [List.range_succ_eq_map]
    rw [hrange]
    simp [List.map_map, Function.comp_def]

theorem sorted_replicate (n a : Nat) :
    List.Sorted (· ≤ ·) (List.replicate n a) := by
  rw [List.Sorted, List.pairwise_replicate]
  right
  exact le_rfl

theorem sorted_blocks (last : Nat) (c : Nat → Nat) :
    ∀ K : Nat, List.Sorted (· ≤ ·)
      (((List.range K).map
        (fun k => List.replicate (c k) (last + k))).flatten) := by
  intro K
  induction K with
  | zero => simp
  | succ n ihn =>
    rw [List.range_succ, List.map_append, List.flatten_append]
    rw [List.Sorted, List.pairwise_append]
    refine ⟨ihn, ?_, ?_⟩
    · simp only [List.map_cons, List.map_nil, List.flatten_cons,
        List.flatten_nil, List.append_nil]
      exact sorted_replicate _ _
    · intro a ha b hb
      simp only [List.map_cons, List.map_nil, List.flatten_cons,
        List.flatten_nil, List.append_nil] at hb
      have hbv : b = last + n := List.eq_of_mem_replicate hb
      rw [List.mem_flatten] at ha
      obtain ⟨blk, hblk, hablk⟩ := ha
      rw [List.mem_map] at hblk
      obtain ⟨k, hk, hbe⟩ := hblk
      rw [← hbe] at hablk
      have hav : a = last + k := List.eq_of_mem_replicate hablk
      rw [List.mem_range] at hk
      omega

theorem collect_window_eq (fn : List Int) (last W : Nat)
    (buf q : List QMsg)
    (h1 : ((fn.drop last).take W).any (fun x => decide (x < 0)) = false)
    (h2 : ((fn.drop last).take W).isEmpty = false) :
    collect_window fn last W buf q
    = (if (if (drainBuffer last W
            (EventStash.init last (windowNevents fn last W), []) buf).1.is_complete
          then ((drainBuffer last W
            (EventStash.init last (windowNevents fn last W), []) buf).1,
            (drainBuffer last W
            (EventStash.init last (windowNevents fn last W), []) buf).2, q)
          else consumeQueue last W
            (drainBuffer last W
              (EventStash.init last (windowNevents fn last W), []) buf).1
            (drainBuffer last W
              (EventStash.init last (windowNevents fn last W), []) buf).2
            q).1.is_complete
       then
         some ({ feature_blocks := (if (drainBuffer last W
                  (EventStash.init last (windowNevents fn last W), [])
                  buf).1.is_complete
                then ((drainBuffer last W
                  (EventStash.init last (windowNevents fn last W), []) buf).1,
                  (drainBuffer last W
                  (EventStash.init last (windowNevents fn last W), []) buf).2,
                  q)
                else consumeQueue last W
                  (drainBuffer last W
                    (EventStash.init last (windowNevents fn last W), [])
                    buf).1
                  (drainBuffer last W
                    (EventStash.init last (windowNevents fn last W), [])
                    buf).2
                  q).1.events,
                 index_unmapped := (if (drainBuffer last W
                  (EventStash.init last (windowNevents fn last W), [])
                  buf).1.is_complete
                then ((drainBuffer last W
                  (EventStash.init last (windowNevents fn last W), []) buf).1,
                  (drainBuffer last W
                  (EventStash.init last (windowNevents fn last W), []) buf).2,
                  q)
                else consumeQueue last W
                  (drainBuffer last W
                    (EventStash.init last (windowNevents fn last W), [])
                    buf).1
                  (drainBuffer last W
                    (EventStash.init last (windowNevents fn last W), [])
                    buf).2
                  q).1.indices_for_data,
                 nevents := ((if (drainBuffer last W
                  (EventStash.init last (windowNevents fn last W), [])
                  buf).1.is_complete
                then ((drainBuffer last W
                  (EventStash.init last (windowNevents fn last W), []) buf).1,
                  (drainBuffer last W
                  (EventStash.init last (windowNevents fn last W), []) buf).2,
                  q)
                else consumeQueue last W
                  (drainBuffer last W
                    (EventStash.init last (windowNevents fn last W), [])
                    buf).1
                  (drainBuffer last W
                    (EventStash.init last (windowNevents fn last W), [])
                    buf).2
                  q).1.indices_for_data).map
                   (fun i => (windowNevents fn last W).getD (i - last) 0) },
               (if (drainBuffer last W
                  (EventStash.init last (windowNevents fn last W), [])
                  buf).1.is_complete
                then ((drainBuffer last W
                  (EventStash.init last (windowNevents fn last W), []) buf).1,
                  (drainBuffer last W
                  (EventStash.init last (windowNevents fn last W), []) buf).2,
                  q)
                else consumeQueue last W
                  (drainBuffer last W
                    (EventStash.init last (windowNevents fn last W), [])
                    buf).1
                  (drainBuffer last W
                    (EventStash.init last (windowNevents fn last W), [])
                    buf).2
                  q).2.1,
               (if (drainBuffer last W
                  (EventStash.init last (windowNevents fn last W), [])
                  buf).1.is_complete
                then ((drainBuffer last W
                  (EventStash.init last (windowNevents fn last W), []) buf).1,
                  (drainBuffer last W
                  (EventStash.init last (windowNevents fn last W), []) buf).2,
                  q)
                else consumeQueue last W
                  (drainBuffer last W
                    (EventStash.init last (windowNevents fn last W), [])
                    buf).1
                  (drainBuffer last W
                    (EventStash.init last (windowNevents fn last W), [])
                    buf).2
                  q).2.2)
       else none) := by
  unfold collect_window
  rw [if_neg (by simp [h1]), if_neg (by simp [h2])]
  rfl

theorem collect_window_final (fn : List Int) (last W : Nat)
    (buf q : List QMsg) (stF : EventStash) (bufR qR : List QMsg)
    (h1 : ((fn.drop last).take W).any (fun x => decide (x < 0)) = false)
    (h2 : ((fn.drop last).take W).isEmpty = false)
    (hr : (if (drainBuffer last W
            (EventStash.init last (windowNevents fn last W), []) buf).1.is_complete
          then ((drainBuffer last W
            (EventStash.init last (windowNevents fn last W), []) buf).1,
            (drainBuffer last W
            (EventStash.init last (windowNevents fn last W), []) buf).2, q)
          else consumeQueue last W
            (drainBuffer last W
              (EventStash.init last (windowNevents fn last W), []) buf).1
            (drainBuffer last W
              (EventStash.init last (windowNevents fn last W), []) buf).2
            q) = (stF, bufR, qR))
    (hcF : stF.is_complete = true) :
    collect_window fn last W buf q
    = some ({ feature_blocks := stF.events,
              index_unmapped := stF.indices_for_data,
              nevents := stF.indices_for_data.map
                (fun i => (windowNevents fn last W).getD (i - last) 0) },
            bufR, qR) := by
  rw [collect_window_eq fn last W buf q h1 h2, hr]
  rw [if_pos hcF]

theorem stash_final_props (last : Nat) (N : List Nat) (ev : Nat → Events)
    (stF : EventStash) (hinv : StashInv last N ev stF)
    (hall : ∀ k, k < N.length → stF.done.getD k false = true)
    (hev : ∀ k, k < N.length → ∀ p ∈ ev k, p.2.length = N.getD k 0) :
    (∀ f : String,
        (∀ k, k < N.length → N.getD k 0 ≠ 0 → ((ev k).lookup f).isSome) →
        (∃ k, k < N.length ∧ ((ev k).lookup f).isSome) →
        stF.events.lookup f
          = some (((List.range N.length).map
              (fun k => ((ev k).lookup f).getD [])).flatten))
    ∧ stF.indices_for_data
        = ((List.range N.length).map
            (fun k => List.replicate (N.getD k 0) (last + k))).flatten
    ∧ stF.indices_for_data.map (fun i => N.getD (i - last) 0)
        = ((List.range N.length).map
            (fun k => List.replicate (N.getD k 0) (N.getD k 0))).flatten := by
  obtain ⟨hio, hfn, hdl, hil, hir, hevs, hnone⟩ := hinv
  have hidx : stF.indices_for_data
      = ((List.range N.length).map
          (fun k => List.replicate (N.getD k 0) (last + k))).flatten := by
    refine eq_join_of_regions N stF.indices_for_data _ hil ?_
    intro k hk
    rw [hir k hk, if_pos (hall k hk)]
  refine ⟨?_, hidx, ?_⟩
  · intro f hcover hsome
    cases hf : stF.events.lookup f with
    | none =>
      obtain ⟨k, hk, hs⟩ := hsome
      rw [hnone f hf k hk (hall k hk)] at hs
      simp at hs
    | some arr =>
      obtain ⟨hlen, hregs⟩ := hevs f arr hf
      congr 1
      refine eq_join_of_regions N arr _ hlen ?_
      intro k hk
      rw [hregs k hk, if_pos (hall k hk)]
      cases hl : (ev k).lookup f with
      | some a =>
        simp only [Option.getD_some]
      | none =>
        have hc0 : N.getD k 0 = 0 := by
          by_contra hc
          have := hcover k hk hc
          rw [hl] at this
          simp at this
        simp only [Option.getD_none]
        rw [hc0, List.replicate_zero]
  · rw [hidx, List.map_flatten, List.map_map]
    congr 1
    refine List.map_eq_map_iff.mpr ?_
    intro k _
    simp only [Function.comp_apply, List.map_replicate]
    congr 1
    rw [Nat.add_sub_cancel_left]

/-- C1: one window of QueueCollectorBase.run.  Whatever the arrival
order of the window messages over the buffer deque and the event queue,
the window completes and pushes, for every feature, the dense array
that concatenates the per-frame payloads in increasing frame order
(events sorted by frame index, intra-frame producer order preserved);
index_unmapped lists every event frame index in non-decreasing order;
and nevents assigns to every event the feat_nevents value of its frame.
The hypotheses state that the window contains no unprocessed (-1)
frames and is non-empty, that every in-window message is the message of
its frame, that every window frame message arrives, that the payload
arrays have the frame event count as outer length (the data-model
invariant), and that no message lists a feature twice. -/
theorem c1_collector_window (fn : List Int) (last W : Nat)
    (buf q : List QMsg) (ev : Nat → Events)
    (hpos : ∀ x ∈ (fn.drop last).take W, 0 ≤ x)
    (hne : (fn.drop last).take W ≠ [])
    (harr : ∀ m ∈ buf ++ q, inWindow last W m.index = true →
        m.index - last < (windowNevents fn last W).length
        ∧ m.events = ev (m.index - last))
    (hall : ∀ k, k < (windowNevents fn last W).length →
        QMsg.mk (last + k) (ev k) ∈ buf ++ q)
    (hev : ∀ k, k < (windowNevents fn last W).length →
        ∀ p ∈ ev k, p.2.length = (windowNevents fn last W).getD k 0)
    (hnodup : ∀ k, k < (windowNevents fn last W).length →
        ((ev k).map Prod.fst).Nodup) :
    ∃ o bufR qR,
      collect_window fn last W buf q = some (o, bufR, qR)
      ∧ (∀ f : String,
          (∀ k, k < (windowNevents fn last W).length →
            (windowNevents fn last W).getD k 0 ≠ 0 →
            ((ev k).lookup f).isSome) →
          (∃ k, k < (windowNevents fn last W).length ∧
            ((ev k).lookup f).isSome) →
          o.feature_blocks.lookup f
            = some (((List.range (windowNevents fn last W).length).map
                (fun k => ((ev k).lookup f).getD [])).flatten))
      ∧ o.index_unmapped
          = ((List.range (windowNevents fn last W).length).map
              (fun k => List.replicate
                ((windowNevents fn last W).getD k 0) (last + k))).flatten
      ∧ List.Sorted (· ≤ ·) o.index_unmapped
      ∧ o.nevents
          = ((List.range (windowNevents fn last W).length).map
              (fun k => List.replicate ((windowNevents fn last W).getD k 0)
                ((windowNevents fn last W).getD k 0))).flatten := by
  have hany : ((fn.drop last).take W).any (fun x => decide (x < 0))
      = false := by
    rw [List.any_eq_false]
    intro x hx
    simpa using hpos x hx
  have hempty : ((fn.drop last).take W).isEmpty = false := by
    rw [Bool.eq_false_iff]
    intro habs
    exact hne (List.isEmpty_iff.mp habs)
  have hKW : (windowNevents fn last W).length ≤ W := by
    unfold windowNevents
    simp only [List.length_map, List.length_take]
    omega
  have harrB : ∀ m ∈ buf, inWindow last W m.index = true →
      m.index - last < (windowNevents fn last W).length
      ∧ m.events = ev (m.index - last) :=
    fun m hm hw => harr m (List.mem_append.mpr (Or.inl hm)) hw
  have harrQ : ∀ m ∈ q, inWindow last W m.index = true →
      m.index - last < (windowNevents fn last W).length
      ∧ m.events = ev (m.index - last) :=
    fun m hm hw => harr m (List.mem_append.mpr (Or.inr hm)) hw
  obtain ⟨hinvD, hmonoD, hmemD⟩ := drainBuffer_ok last W
    (windowNevents fn last W) ev hKW hev hnodup buf
    (EventStash.init last (windowNevents fn last W)) []
    (stash_init_inv last (windowNevents fn last W) ev) harrB
  by_cases hcomp : (drainBuffer last W
      (EventStash.init last (windowNevents fn last W), []) buf).1.is_complete
      = true
  · have hfin := collect_window_final fn last W buf q
      (drainBuffer last W
        (EventStash.init last (windowNevents fn last W), []) buf).1
      (drainBuffer last W
        (EventStash.init last (windowNevents fn last W), []) buf).2
      q hany hempty (by rw [if_pos hcomp]) hcomp
    have hdall : ∀ k, k < (windowNevents fn last W).length →
        (drainBuffer last W
          (EventStash.init last (windowNevents fn last W), [])
          buf).1.done.getD k false = true := by
      intro k hk
      have hdl := hinvD.2.2.1
      exact (is_complete_iff _).mp hcomp k (by omega)
    obtain ⟨hf, hidx, hnev⟩ := stash_final_props last
      (windowNevents fn last W) ev _ hinvD hdall hev
    exact ⟨_, _, _, hfin, hf, hidx, hidx ▸ sorted_blocks last _ _, hnev⟩
  · have hmiss : ∀ k, k < (windowNevents fn last W).length →
        (drainBuffer last W
          (EventStash.init last (windowNevents fn last W), [])
          buf).1.done.getD k false = true
        ∨ QMsg.mk (last + k) (ev k) ∈ q := by
      intro k hk
      rcases List.mem_append.mp (hall k hk) with hm | hm
      · exact Or.inl (hmemD k hk hm)
      · exact Or.inr hm
    obtain ⟨hinvC, hcompC⟩ := consumeQueue_ok last W
      (windowNevents fn last W) ev hKW hev hnodup q
      (drainBuffer last W
        (EventStash.init last (windowNevents fn last W), []) buf).1
      (drainBuffer last W
        (EventStash.init last (windowNevents fn last W), []) buf).2
      hinvD harrQ hmiss (by simpa using hcomp)
    have hfin := collect_window_final fn last W buf q
      (consumeQueue last W
        (drainBuffer last W
          (EventStash.init last (windowNevents fn last W), []) buf).1
        (drainBuffer last W
          (EventStash.init last (windowNevents fn last W), []) buf).2
        q).1
      (consumeQueue last W
        (drainBuffer last W
          (EventStash.init last (windowNevents fn last W), []) buf).1
        (drainBuffer last W
          (EventStash.init last (windowNevents fn last W), []) buf).2
        q).2.1
      (consumeQueue last W
        (drainBuffer last W
          (EventStash.init last (windowNevents fn last W), []) buf).1
        (drainBuffer last W
          (EventStash.init last (windowNevents fn last W), []) buf).2
        q).2.2
      hany hempty (by rw [if_neg hcomp]) hcompC
    have hdall : ∀ k, k < (windowNevents fn last W).length →
        (consumeQueue last W
          (drainBuffer last W
            (EventStash.init last (windowNevents fn last W), []) buf).1
          (drainBuffer last W
            (EventStash.init last (windowNevents fn last W), []) buf).2
          q).1.done.getD k false = true := by
      intro k hk
      have hdl := hinvC.2.2.1
      exact (is_complete_iff _).mp hcompC k (by omega)
    obtain ⟨hf, hidx, hnev⟩ := stash_final_props last
      (windowNevents fn last W) ev _ hinvC hdall hev
    exact ⟨_, _, _, hfin, hf, hidx, hidx ▸ sorted_blocks last _ _, hnev⟩

/-- The producer messages of the witness window (example E4 of the
spec): frames 0, 2 and 3 carry temp arrays, frame 1 has no events. -/
def evW : Nat → Events := fun k =>
  if k = 0 then [("temp", [10])]
  else if k = 2 then [("temp", [20, 21])]
  else if k = 3 then [("temp", [30])]
  else []

/-- Witness for c1_collector_window: the E4 window with the frame-2
message waiting in the buffer and the others arriving out of order on
the queue. -/
theorem c1_collector_window_witness :
    ∃ o bufR qR,
      collect_window [1, 0, 2, 1] 0 4 [⟨2, [("temp", [20, 21])]⟩]
          [⟨0, [("temp", [10])]⟩, ⟨1, []⟩, ⟨3, [("temp", [30])]⟩]
        = some (o, bufR, qR)
      ∧ (∀ f : String,
          (∀ k, k < (windowNevents [1, 0, 2, 1] 0 4).length →
            (windowNevents [1, 0, 2, 1] 0 4).getD k 0 ≠ 0 →
            ((evW k).lookup f).isSome) →
          (∃ k, k < (windowNevents [1, 0, 2, 1] 0 4).length ∧
            ((evW k).lookup f).isSome) →
          o.feature_blocks.lookup f
            = some (((List.range (windowNevents [1, 0, 2, 1] 0 4).length).map
                (fun k => ((evW k).lookup f).getD [])).flatten))
      ∧ o.index_unmapped
          = ((List.range (windowNevents [1, 0, 2, 1] 0 4).length).map
              (fun k => List.replicate
                ((windowNevents [1, 0, 2, 1] 0 4).getD k 0) (0 + k))).flatten
      ∧ List.Sorted (· ≤ ·) o.index_unmapped
      ∧ o.nevents
          = ((List.range (windowNevents [1, 0, 2, 1] 0 4).length).map
              (fun k => List.replicate
                ((windowNevents [1, 0, 2, 1] 0 4).getD k 0)
                ((windowNevents [1, 0, 2, 1] 0 4).getD k 0))).flatten :=
  c1_collector_window [1, 0, 2, 1] 0 4 [⟨2, [("temp", [20, 21])]⟩]
    [⟨0, [("temp", [10])]⟩, ⟨1, []⟩, ⟨3, [("temp", [30])]⟩] evW
    (by decide) (by decide) (by decide) (by decide) (by decide) (by decide)

end Dcnum